import Mathlib

/-!
Verification of the core of the pepper text editor against its
natural-language specification.

The development shallowly embeds the relevant Rust modules:

* `src/syntax.rs` — the per-line incremental syntax highlighter
  (`Syntax::parse_line`, `HighlightedBuffer::highligh_all`,
  `on_insert`, `on_delete`, `fix_highlight_from`, `find_token_kind_at`);
* `lib/client_event.rs` — key text parsing and display, binary key and
  client-event codecs;
* `src/connection.rs` — the framed read buffer (`ReadBuf` / `ReadGuard`)
  and the server connection collection (`receive_keys`).

Modelling conventions:

* Rust byte strings (`&str`, `&[u8]`) are `List Nat` of byte values;
  lines of a buffer are `List (List Nat)`.
* The regex-like `Pattern` is a black box in the spec; it is embedded as
  a pair of functions returning `MatchResult`.  `PatternState` is
  an opaque `Nat` token.  `MatchResult::Pending` in Rust carries two
  fields of which only the state is ever read here; the model keeps the
  state field only.
* Machine integers are `Nat` with explicit bounds where overflow or
  width matters.
* Code of the repository that is not present under `src/`
  (the `serialization.rs` primitives, `BufferContent`, `buffer_position.rs`,
  `EditorLoop`, the `ClientEventDeserializer`) is modelled from the spec;
  each such definition carries a doc comment starting `Modelled from the
  spec:`.
-/

namespace Pepper

/-! ## Data model of `src/syntax.rs` -/

/-- `TokenKind` from `src/syntax.rs`. -/
inductive TokenKind where
  | whitespace
  | text
  | comment
  | keyword
  | type
  | symbol
  | string
  | literal
  deriving DecidableEq, Repr

/-- `Token` from `src/syntax.rs`: a kind plus a byte range
`start..stop` within a single line (Rust `Range<usize>`). -/
structure Token where
  kind : TokenKind
  start : Nat
  stop : Nat
  deriving DecidableEq, Repr

instance : Inhabited Token := ⟨⟨TokenKind.text, 0, 0⟩⟩

/-- Continuation state of the black-box `Pattern`, modelled as a bare
token drawn from `Nat`. -/
abbrev PatternState := Nat

/-- `LineState` from `src/syntax.rs`. -/
inductive LineState where
  | finished
  | unfinished (patternIndex : Nat) (state : PatternState)

instance : DecidableEq LineState := fun a b => by
  cases a <;> cases b
  case finished.finished => exact isTrue rfl
  case finished.unfinished => exact isFalse (by intro h; cases h)
  case unfinished.finished => exact isFalse (by intro h; cases h)
  case unfinished.unfinished i s j t =>
    exact if h : i = j ∧ s = t then isTrue (by rw [h.1, h.2])
    else isFalse (by intro he; cases he; exact h ⟨rfl, rfl⟩)

/-- `Default for LineState` from `src/syntax.rs`: `Finished`. -/
instance : Inhabited LineState := ⟨LineState.finished⟩

/-- Result of the black-box pattern engine, as given in the spec:
`matches(input) → Ok(len) | Err | Pending(state)`. -/
inductive MatchResult where
  | ok (len : Nat)
  | err
  | pending (state : PatternState)

/-- The black-box `Pattern` interface the spec exposes:
`matches` and `matches_with_state`.  Rust's method name `matches` is a
Lean keyword, hence the field name `matchesInput`. -/
structure Pattern where
  matchesInput : List Nat → MatchResult
  matchesWithState : List Nat → PatternState → MatchResult

/-- A pattern that never matches; used as the out-of-bounds default for
the (unreachable) translation of Rust's panicking index `rules[i]`. -/
def Pattern.never : Pattern := ⟨fun _ => MatchResult.err, fun _ _ => MatchResult.err⟩

/-- `Syntax` from `src/syntax.rs`, without the `glob` field (globs play
no role in the claims). -/
structure Syntax where
  rules : List (TokenKind × Pattern)

/-- Translation of Rust's `self.rules[i].0` (kind of rule `i`). -/
def kindAt (syn : Syntax) (i : Nat) : TokenKind :=
  (syn.rules.getD i (TokenKind.text, Pattern.never)).1

/-- Translation of Rust's `self.rules[i].1` (pattern of rule `i`). -/
def patternAt (syn : Syntax) (i : Nat) : Pattern :=
  (syn.rules.getD i (TokenKind.text, Pattern.never)).2

/-- `u8::is_ascii_whitespace`. -/
def isAsciiWhitespace (b : Nat) : Bool :=
  b == 32 || b == 9 || b == 10 || b == 12 || b == 13

/-- `u8::is_ascii_alphanumeric`. -/
def isAsciiAlphanumericByte (b : Nat) : Bool :=
  (48 ≤ b && b ≤ 57) || (65 ≤ b && b ≤ 90) || (97 ≤ b && b ≤ 122)

/-- A UTF-8 continuation byte (`0b10xxxxxx`). -/
def isUtf8Continuation (b : Nat) : Bool :=
  128 ≤ b && b < 192

/-- `str::is_char_boundary` on a byte list.  For `i > line.length` the
Rust function returns `false`; the call sites in `parse_line` clamp the
index with `min` so that case is unreachable, and the model returns
`true` there to keep the boundary-skipping loop total. -/
def isCharBoundary (line : List Nat) (i : Nat) : Bool :=
  i == 0 || line.length ≤ i || !isUtf8Continuation (line.getD i 0)

/-- The `while !line.is_char_boundary(line_index) { line_index += 1 }`
loop of `Syntax::parse_line`, with structural fuel.  A non-boundary
index is strictly below `line.length` and `line.length` is always a
boundary, so `line.length + 1` units of fuel (supplied by
`skipToBoundary`) always suffice; the fuel-exhausted base case is
unreachable from the wrapper. -/
def skipToBoundaryGo (line : List Nat) : Nat → Nat → Nat
  | 0, i => i
  | fuel + 1, i =>
    if isCharBoundary line i then i
    else skipToBoundaryGo line fuel (i + 1)

/-- The boundary-skipping loop of `Syntax::parse_line`. -/
def skipToBoundary (line : List Nat) (i : Nat) : Nat :=
  skipToBoundaryGo line (line.length + 1) i

theorem skipToBoundaryGo_ge (line : List Nat) (fuel i : Nat) :
    i ≤ skipToBoundaryGo line fuel i := by
  induction fuel generalizing i with
  | zero => exact Nat.le_refl i
  | succ fuel ih =>
    unfold skipToBoundaryGo
    split
    · exact Nat.le_refl i
    · exact Nat.le_trans (Nat.le_succ i) (ih (i + 1))

theorem skipToBoundary_ge (line : List Nat) (i : Nat) :
    i ≤ skipToBoundary line i :=
  skipToBoundaryGo_ge line (line.length + 1) i

/-- Outcome of the rule-scanning `for` loop inside `Syntax::parse_line`:
either some rule returned `Pending` (early return), or the loop finished
with the best rule index and the maximal length. -/
inductive ScanOutcome where
  | pendingAt (i : Nat) (st : PatternState)
  | best (bestIdx maxLen : Nat)

/-- The `for (i, (kind, pattern)) in self.rules.iter().enumerate()` loop
of `Syntax::parse_line`: keep the maximal `Ok(len)`, overwriting only on
a strictly greater length (`if len > max_len`); return early on
`Pending`. -/
def scanRules (rs : List (TokenKind × Pattern)) (slice : List Nat)
    (i best maxLen : Nat) : ScanOutcome :=
  match rs with
  | [] => ScanOutcome.best best maxLen
  | (_, p) :: rest =>
    match p.matchesInput slice with
    | MatchResult.ok len =>
      if maxLen < len then scanRules rest slice (i + 1) i len
      else scanRules rest slice (i + 1) best maxLen
    | MatchResult.err => scanRules rest slice (i + 1) best maxLen
    | MatchResult.pending st => ScanOutcome.pendingAt i st

/-- The `max_len` recomputation of the `max_len == 0` branch of
`Syntax::parse_line`: the run of ASCII alphanumerics, or one byte. -/
def textRunLen (slice2 : List Nat) : Nat :=
  Nat.max (slice2.takeWhile isAsciiAlphanumericByte).length 1

/-- The effective match length of one iteration of the scanning loop,
before the whitespace length is added back. -/
def stepLen (slice2 : List Nat) (maxLen : Nat) : Nat :=
  if maxLen == 0 then textRunLen slice2 else maxLen

theorem stepLen_pos (slice2 : List Nat) (maxLen : Nat) :
    1 ≤ stepLen slice2 maxLen := by
  unfold stepLen textRunLen
  split
  · exact Nat.le_max_right _ 1
  · next hc => exact Nat.pos_of_ne_zero (by simpa using hc)

/-- The `while line_index < line_len` loop of `Syntax::parse_line`,
returning the tokens it pushes plus the resulting `LineState`, with
structural fuel.  Each iteration advances the cursor by at least one
byte (`stepLen` is positive and `skipToBoundary` never moves left), so
at most `line.length` iterations run before the `lineIndex <
line.length` guard fails; the `line.length + 1` units supplied by
`parseLoop` always suffice, and the fuel-exhausted base case returns
the same value as the guard-failed branch. -/
def parseLoopGo (syn : Syntax) (line : List Nat) :
    Nat → Nat → List Token × LineState
  | 0, _ => ([], LineState.finished)
  | fuel + 1, lineIndex =>
    if lineIndex < line.length then
      let lineSlice := line.drop lineIndex
      let whitespaceLen := (lineSlice.takeWhile isAsciiWhitespace).length
      let lineSlice2 := lineSlice.drop whitespaceLen
      match scanRules syn.rules lineSlice2 0 0 0 with
      | ScanOutcome.pendingAt i st =>
        ([⟨kindAt syn i, lineIndex, line.length⟩], LineState.unfinished i st)
      | ScanOutcome.best bestIdx maxLen =>
        let kind := if maxLen == 0 then TokenKind.text else kindAt syn bestIdx
        let next := skipToBoundary line
          (Nat.min line.length (lineIndex + (stepLen lineSlice2 maxLen + whitespaceLen)))
        let rest := parseLoopGo syn line fuel next
        (⟨kind, lineIndex, next⟩ :: rest.1, rest.2)
    else ([], LineState.finished)

/-- The `while line_index < line_len` loop of `Syntax::parse_line`. -/
def parseLoop (syn : Syntax) (line : List Nat) (lineIndex : Nat) :
    List Token × LineState :=
  parseLoopGo syn line (line.length + 1) lineIndex

/-- The slice the rules are matched against at a cursor position: the
remainder of the line with its leading ASCII whitespace skipped
(`line_slice` after the two reassignments in `parse_line`). -/
def cursorSlice (line : List Nat) (lineIndex : Nat) : List Nat :=
  (line.drop lineIndex).drop
    ((line.drop lineIndex).takeWhile isAsciiWhitespace).length

/-- `Syntax::parse_line` from `src/syntax.rs`.  Returns the token list
(the Rust code clears and refills the `tokens` out-parameter) and the
resulting `LineState`. -/
def parseLine (syn : Syntax) (line : List Nat) (previousLineKind : LineState) :
    List Token × LineState :=
  if syn.rules.length == 0 then
    ([⟨TokenKind.text, 0, line.length⟩], LineState.finished)
  else
    match previousLineKind with
    | LineState.finished => parseLoop syn line 0
    | LineState.unfinished patternIndex st =>
      match (patternAt syn patternIndex).matchesWithState line st with
      | MatchResult.ok len =>
        let rest := parseLoop syn line len
        (⟨kindAt syn patternIndex, 0, len⟩ :: rest.1, rest.2)
      | MatchResult.err => parseLoop syn line 0
      | MatchResult.pending st2 =>
        ([⟨kindAt syn patternIndex, 0, line.length⟩],
         LineState.unfinished patternIndex st2)

/-- `HighlightedLine` from `src/syntax.rs`. -/
structure HLine where
  state : LineState
  tokens : List Token

instance : DecidableEq HLine := fun a b => by
  cases a with | mk s t => cases b with | mk s2 t2 =>
    exact if h : s = s2 ∧ t = t2 then isTrue (by rw [h.1, h.2])
    else isFalse (by intro he; cases he; exact h ⟨rfl, rfl⟩)

/-- `HighlightedLine::default()`: `Finished` state, no tokens. -/
instance : Inhabited HLine := ⟨⟨LineState.finished, []⟩⟩

/-- The body of `HighlightedBuffer::highligh_all`: parse every buffer
line in order, threading the carry state, starting from `carry`. -/
def highlightLinesFrom (syn : Syntax) (carry : LineState) :
    List (List Nat) → List HLine
  | [] => []
  | b :: bs =>
    let r := parseLine syn b carry
    ⟨r.2, r.1⟩ :: highlightLinesFrom syn r.2 bs

/-- `HighlightedBuffer::highligh_all` from `src/syntax.rs`: the overlay
is resized to the buffer's line count and every line is re-parsed with
the previous line's resulting state, so the result is a function of the
buffer alone. -/
def highlighAll (syn : Syntax) (buffer : List (List Nat)) : List HLine :=
  highlightLinesFrom syn LineState.finished buffer

/-- `HighlightedBuffer::previous_line_kind_at` from `src/syntax.rs`. -/
def previousLineKindAt (hb : List HLine) (index : Nat) : LineState :=
  match index with
  | 0 => LineState.finished
  | i + 1 => (hb.getD i default).state

/-- Modelled from the spec: `BufferPosition` `(line_index,
column_byte_index)` — `buffer_position.rs` is not under `src/`.  Rust's
field `from`/`to` of `BufferRange` are renamed `fromPos`/`toPos`
(`from` is a Lean keyword). -/
structure BufferPosition where
  lineIndex : Nat
  columnByteIndex : Nat

/-- Modelled from the spec: `BufferRange`, an ordered pair of positions. -/
structure BufferRange where
  fromPos : BufferPosition
  toPos : BufferPosition

/-- The `for` loop of `HighlightedBuffer::on_insert`: re-parse `count`
lines of `blines` zipped against `hlines`, threading the carry;
returns the updated lines (length preserved) and the final carry. -/
def parseSpan (syn : Syntax) :
    List (List Nat) → List HLine → LineState → Nat → List HLine × LineState
  | _, hs, carry, 0 => (hs, carry)
  | [], hs, carry, _ + 1 => (hs, carry)
  | _ :: _, [], carry, _ + 1 => ([], carry)
  | b :: bs, _ :: hs, carry, n + 1 =>
    let r := parseLine syn b carry
    let rest := parseSpan syn bs hs r.2 n
    (⟨r.2, r.1⟩ :: rest.1, rest.2)

/-- The `for` loop of `HighlightedBuffer::fix_highlight_from`: walk the
zipped buffer/overlay tails, breaking as soon as both the incoming carry
and the line's stored state are `Finished`. -/
def fixHighlightLoop (syn : Syntax) :
    List (List Nat) → List HLine → LineState → List HLine
  | _, [], _ => []
  | [], hs, _ => hs
  | b :: bs, h :: hs, carry =>
    if carry = LineState.finished ∧ h.state = LineState.finished then h :: hs
    else
      let r := parseLine syn b carry
      ⟨r.2, r.1⟩ :: fixHighlightLoop syn bs hs r.2

/-- `HighlightedBuffer::fix_highlight_from` from `src/syntax.rs`. -/
def fixHighlightFrom (syn : Syntax) (buffer : List (List Nat))
    (carry : LineState) (fixFromIndex : Nat) (hb : List HLine) : List HLine :=
  if hb.length < fixFromIndex then hb
  else
    hb.take fixFromIndex ++
      fixHighlightLoop syn (buffer.drop fixFromIndex) (hb.drop fixFromIndex) carry

/-- `HighlightedBuffer::on_insert` from `src/syntax.rs`. -/
def onInsert (syn : Syntax) (buffer : List (List Nat)) (range : BufferRange)
    (hb : List HLine) : List HLine :=
  let a := range.fromPos.lineIndex
  let b := range.toPos.lineIndex
  let previousLineKind := previousLineKindAt hb a
  let insertIndex := a + 1
  let insertCount := b - a
  let hb2 := hb.take insertIndex ++ List.replicate insertCount default ++
    hb.drop insertIndex
  let r := parseSpan syn (buffer.drop a) (hb2.drop a) previousLineKind
    (insertCount + 1)
  let hb3 := hb2.take a ++ r.1
  fixHighlightFrom syn buffer r.2 (b + 1) hb3

/-- `HighlightedBuffer::on_delete` from `src/syntax.rs`.  Note: the
source passes `range.to.line_index + 1` (not `from + 1`) as the start of
the repair walk. -/
def onDelete (syn : Syntax) (buffer : List (List Nat)) (range : BufferRange)
    (hb : List HLine) : List HLine :=
  let a := range.fromPos.lineIndex
  let b := range.toPos.lineIndex
  let previousLineKind := previousLineKindAt hb a
  let hb2 := hb.take a ++ hb.drop b
  let r := parseLine syn (buffer.getD a []) previousLineKind
  let hb3 := hb2.set a ⟨r.2, r.1⟩
  fixHighlightFrom syn buffer r.2 (b + 1) hb3

/-- Modelled from the spec: `on_delete` as §4.H words it — identical to
the source's `on_delete` except that the repair walk starts at
`range.from.line_index + 1`. -/
def onDeleteSpec (syn : Syntax) (buffer : List (List Nat)) (range : BufferRange)
    (hb : List HLine) : List HLine :=
  let a := range.fromPos.lineIndex
  let b := range.toPos.lineIndex
  let previousLineKind := previousLineKindAt hb a
  let hb2 := hb.take a ++ hb.drop b
  let r := parseLine syn (buffer.getD a []) previousLineKind
  let hb3 := hb2.set a ⟨r.2, r.1⟩
  fixHighlightFrom syn buffer r.2 (a + 1) hb3

/-- The comparator closure of `HighlightedBuffer::find_token_kind_at`. -/
def tokenCmp (charIndex : Nat) (t : Token) : Ordering :=
  if charIndex < t.start then Ordering.gt
  else if t.stop ≤ charIndex then Ordering.lt
  else Ordering.eq

/-- Rust `slice::binary_search_by` (mid = left + size / 2; `Less` moves
`left` past `mid`, `Greater` lowers `right` to `mid`, `Equal` returns),
with structural fuel.  Every iteration strictly shrinks `right - left`,
so the `right - left + 1` units supplied by `binarySearchLoop` always
suffice; the fuel-exhausted base case returns the same value as an
empty interval. -/
def binarySearchGo (f : Token → Ordering) (ts : List Token) :
    Nat → Nat → Nat → Option Nat
  | 0, _, _ => none
  | fuel + 1, left, right =>
    if left < right then
      match f (ts.getD (left + (right - left) / 2) default) with
      | Ordering.lt => binarySearchGo f ts fuel (left + (right - left) / 2 + 1) right
      | Ordering.gt => binarySearchGo f ts fuel left (left + (right - left) / 2)
      | Ordering.eq => some (left + (right - left) / 2)
    else none

/-- Rust `slice::binary_search_by` over a token list. -/
def binarySearchLoop (f : Token → Ordering) (ts : List Token)
    (left right : Nat) : Option Nat :=
  binarySearchGo f ts (right - left + 1) left right

/-- `HighlightedBuffer::find_token_kind_at` from `src/syntax.rs`. -/
def findTokenKindAt (hb : List HLine) (lineIndex charIndex : Nat) : TokenKind :=
  if hb.length ≤ lineIndex then TokenKind.text
  else
    let tokens := (hb.getD lineIndex default).tokens
    match binarySearchLoop (tokenCmp charIndex) tokens 0 tokens.length with
    | some i => (tokens.getD i default).kind
    | none => TokenKind.text

/-! ## Concrete pattern instances

The spec treats `Pattern` as a black box; the following concrete
instance realises the behaviour of the block-comment pattern
`/*{!(*/).$}` used by the repository's own tests: `matches` succeeds on
a slice starting with `/*` whose closing `*/` occurs in the remainder,
stays pending when the comment is unclosed, and fails otherwise;
`matches_with_state` looks for the closing `*/` from the line start. -/

/-- First index at which `pat` occurs as a contiguous sublist. -/
def findSub (pat : List Nat) : List Nat → Option Nat
  | [] => if pat.isEmpty then some 0 else none
  | b :: rest =>
    if pat.isPrefixOf (b :: rest) then some 0
    else (findSub pat rest).map (· + 1)

/-- A block-comment pattern (`/* ... */`, possibly spanning lines). -/
def commentPattern : Pattern where
  matchesInput s :=
    if [47, 42].isPrefixOf s then
      match findSub [42, 47] (s.drop 2) with
      | some k => MatchResult.ok (k + 4)
      | none => MatchResult.pending 0
    else MatchResult.err
  matchesWithState s _ :=
    match findSub [42, 47] s with
    | some k => MatchResult.ok (k + 2)
    | none => MatchResult.pending 0

/-- A one-rule syntax highlighting block comments. -/
def commentSyntax : Syntax := ⟨[(TokenKind.comment, commentPattern)]⟩

/-! ## `lib/client_event.rs`: keys, key text parsing, key codec -/

/-- `Key` from the platform module, with the variant order fixed by the
wire discriminants of `serialize_key` (`None = 0 … Esc = 17`).  Rust's
`End` variant is renamed `endKey` (`end` is a Lean keyword); `F` carries
a `Nat` whose wire format is the spec's `u32`. -/
inductive Key where
  | none
  | backspace
  | enter
  | left
  | right
  | up
  | down
  | home
  | endKey
  | pageUp
  | pageDown
  | tab
  | delete
  | f (n : Nat)
  | char (c : Char)
  | ctrl (c : Char)
  | alt (c : Char)
  | esc
  deriving DecidableEq

/-- `KeyParseError` from `lib/client_event.rs`. -/
inductive KeyParseError where
  | unexpectedEnd
  | invalidCharacter (c : Char)
  deriving DecidableEq

instance {ε α : Type} [DecidableEq ε] [DecidableEq α] :
    DecidableEq (Except ε α) := fun a b =>
  match a, b with
  | Except.error e, Except.error e2 =>
    if h : e = e2 then isTrue (by rw [h])
    else isFalse (by intro hh; cases hh; exact h rfl)
  | Except.error _, Except.ok _ => isFalse (by intro hh; cases hh)
  | Except.ok _, Except.error _ => isFalse (by intro hh; cases hh)
  | Except.ok v, Except.ok v2 =>
    if h : v = v2 then isTrue (by rw [h])
    else isFalse (by intro hh; cases hh; exact h rfl)

/-- The `next!` / `consume!` macro pair of `parse_key`: take one
character and require it to equal `expected`. -/
def consumeChar (expected : Char) (cs : List Char) :
    Except KeyParseError (List Char) :=
  match cs with
  | [] => Except.error KeyParseError.unexpectedEnd
  | c :: rest =>
    if c = expected then Except.ok rest
    else Except.error (KeyParseError.invalidCharacter c)

/-- The `consume_str!` macro of `parse_key`. -/
def consumeStr (expected : List Char) (cs : List Char) :
    Except KeyParseError (List Char) :=
  match expected with
  | [] => Except.ok cs
  | e :: es => do consumeStr es (← consumeChar e cs)

/-- `char::to_digit(10)`. -/
def toDigit10 (c : Char) : Option Nat :=
  if 48 ≤ c.toNat ∧ c.toNat ≤ 57 then some (c.toNat - 48) else none

/-- `char::is_ascii_alphanumeric`. -/
def isAsciiAlphanumericChar (c : Char) : Bool :=
  (48 ≤ c.toNat && c.toNat ≤ 57) || (65 ≤ c.toNat && c.toNat ≤ 90) ||
    (97 ≤ c.toNat && c.toNat ≤ 122)

/-- `char::is_ascii`. -/
def isAsciiChar (c : Char) : Bool := c.toNat ≤ 127

/-- `parse_key` from `lib/client_event.rs`, over the remaining character
stream; returns the parsed key together with the unconsumed characters. -/
def parseKey (cs : List Char) : Except KeyParseError (Key × List Char) :=
  match cs with
  | [] => Except.error KeyParseError.unexpectedEnd
  | c :: cs =>
    if c = '<' then
      match cs with
      | [] => Except.error KeyParseError.unexpectedEnd
      | c2 :: cs =>
        if c2 = 'b' then do
          let r ← consumeStr ['a', 'c', 'k', 's', 'p', 'a', 'c', 'e', '>'] cs
          Except.ok (Key.backspace, r)
        else if c2 = 's' then do
          let r ← consumeStr ['p', 'a', 'c', 'e', '>'] cs
          Except.ok (Key.char ' ', r)
        else if c2 = 'e' then
          match cs with
          | [] => Except.error KeyParseError.unexpectedEnd
          | c3 :: cs =>
            if c3 = 'n' then
              match cs with
              | [] => Except.error KeyParseError.unexpectedEnd
              | c4 :: cs =>
                if c4 = 't' then do
                  let r ← consumeStr ['e', 'r', '>'] cs
                  Except.ok (Key.enter, r)
                else if c4 = 'd' then do
                  let r ← consumeChar '>' cs
                  Except.ok (Key.endKey, r)
                else Except.error (KeyParseError.invalidCharacter c4)
            else if c3 = 's' then do
              let r ← consumeStr ['c', '>'] cs
              Except.ok (Key.esc, r)
            else Except.error (KeyParseError.invalidCharacter c3)
        else if c2 = 'l' then do
          let cs ← consumeChar 'e' cs
          match cs with
          | [] => Except.error KeyParseError.unexpectedEnd
          | c3 :: cs =>
            if c3 = 's' then do
              let r ← consumeStr ['s', '>'] cs
              Except.ok (Key.char '<', r)
            else if c3 = 'f' then do
              let r ← consumeStr ['t', '>'] cs
              Except.ok (Key.left, r)
            else Except.error (KeyParseError.invalidCharacter c3)
        else if c2 = 'g' then do
          let r ← consumeStr ['r', 'e', 'a', 't', 'e', 'r', '>'] cs
          Except.ok (Key.char '>', r)
        else if c2 = 'r' then do
          let r ← consumeStr ['i', 'g', 'h', 't', '>'] cs
          Except.ok (Key.right, r)
        else if c2 = 'u' then do
          let r ← consumeStr ['p', '>'] cs
          Except.ok (Key.up, r)
        else if c2 = 'd' then
          match cs with
          | [] => Except.error KeyParseError.unexpectedEnd
          | c3 :: cs =>
            if c3 = 'o' then do
              let r ← consumeStr ['w', 'n', '>'] cs
              Except.ok (Key.down, r)
            else if c3 = 'e' then do
              let r ← consumeStr ['l', 'e', 't', 'e', '>'] cs
              Except.ok (Key.delete, r)
            else Except.error (KeyParseError.invalidCharacter c3)
        else if c2 = 'h' then do
          let r ← consumeStr ['o', 'm', 'e', '>'] cs
          Except.ok (Key.home, r)
        else if c2 = 'p' then do
          let cs ← consumeStr ['a', 'g', 'e'] cs
          match cs with
          | [] => Except.error KeyParseError.unexpectedEnd
          | c3 :: cs =>
            if c3 = 'u' then do
              let r ← consumeStr ['p', '>'] cs
              Except.ok (Key.pageUp, r)
            else if c3 = 'd' then do
              let r ← consumeStr ['o', 'w', 'n', '>'] cs
              Except.ok (Key.pageDown, r)
            else Except.error (KeyParseError.invalidCharacter c3)
        else if c2 = 't' then do
          let r ← consumeStr ['a', 'b', '>'] cs
          Except.ok (Key.tab, r)
        else if c2 = 'f' then
          match cs with
          | [] => Except.error KeyParseError.unexpectedEnd
          | c3 :: cs =>
            match toDigit10 c3 with
            | some d0 =>
              match cs with
              | [] => Except.error KeyParseError.unexpectedEnd
              | c4 :: cs =>
                match toDigit10 c4 with
                | some d1 => do
                  let r ← consumeChar '>' cs
                  Except.ok (Key.f (d0 * 10 + d1), r)
                | Option.none =>
                  if c4 = '>' then Except.ok (Key.f d0, cs)
                  else Except.error (KeyParseError.invalidCharacter c4)
            | Option.none => Except.error (KeyParseError.invalidCharacter c3)
        else if c2 = 'c' then do
          let cs ← consumeChar '-' cs
          match cs with
          | [] => Except.error KeyParseError.unexpectedEnd
          | c3 :: cs =>
            if isAsciiAlphanumericChar c3 then do
              let r ← consumeChar '>' cs
              Except.ok (Key.ctrl c3, r)
            else Except.error (KeyParseError.invalidCharacter c3)
        else if c2 = 'a' then do
          let cs ← consumeChar '-' cs
          match cs with
          | [] => Except.error KeyParseError.unexpectedEnd
          | c3 :: cs =>
            if isAsciiAlphanumericChar c3 then do
              let r ← consumeChar '>' cs
              Except.ok (Key.alt c3, r)
            else Except.error (KeyParseError.invalidCharacter c3)
        else Except.error (KeyParseError.invalidCharacter c2)
    else if c = '>' then Except.error (KeyParseError.invalidCharacter c)
    else if isAsciiChar c then Except.ok (Key.char c, cs)
    else Except.error (KeyParseError.invalidCharacter c)

/-- Decimal rendering of a natural number, as `format_args!("{}", n)`
produces for an unsigned integer, with structural fuel: the recursion
depth is the digit count, which never exceeds `n + 1`. -/
def natDecimalCharsGo : Nat → Nat → List Char
  | 0, _ => []
  | fuel + 1, n =>
    if n < 10 then [Char.ofNat (48 + n)]
    else natDecimalCharsGo fuel (n / 10) ++ [Char.ofNat (48 + n % 10)]

/-- Decimal rendering of a natural number. -/
def natDecimalChars (n : Nat) : List Char :=
  natDecimalCharsGo (n + 1) n

/-- `impl fmt::Display for Key` from `lib/client_event.rs`, as the list
of characters it writes (`Key::None` writes nothing). -/
def keyDisplay : Key → List Char
  | Key.none => []
  | Key.backspace => ['<', 'b', 'a', 'c', 'k', 's', 'p', 'a', 'c', 'e', '>']
  | Key.enter => ['<', 'e', 'n', 't', 'e', 'r', '>']
  | Key.left => ['<', 'l', 'e', 'f', 't', '>']
  | Key.right => ['<', 'r', 'i', 'g', 'h', 't', '>']
  | Key.up => ['<', 'u', 'p', '>']
  | Key.down => ['<', 'd', 'o', 'w', 'n', '>']
  | Key.home => ['<', 'h', 'o', 'm', 'e', '>']
  | Key.endKey => ['<', 'e', 'n', 'd', '>']
  | Key.pageUp => ['<', 'p', 'a', 'g', 'e', 'u', 'p', '>']
  | Key.pageDown => ['<', 'p', 'a', 'g', 'e', 'd', 'o', 'w', 'n', '>']
  | Key.tab => ['<', 't', 'a', 'b', '>']
  | Key.delete => ['<', 'd', 'e', 'l', 'e', 't', 'e', '>']
  | Key.f n => '<' :: 'f' :: (natDecimalChars n ++ ['>'])
  | Key.char c =>
    if c = ' ' then ['<', 's', 'p', 'a', 'c', 'e', '>']
    else if c = '<' then ['<', 'l', 'e', 's', 's', '>']
    else if c = '>' then ['<', 'g', 'r', 'e', 'a', 't', 'e', 'r', '>']
    else [c]
  | Key.ctrl c => ['<', 'c', '-', c, '>']
  | Key.alt c => ['<', 'a', '-', c, '>']
  | Key.esc => ['<', 'e', 's', 'c', '>']

/-! ## Binary codec

`serialize_key`, `deserialize_key` and the `ClientEvent` codec are in
`lib/client_event.rs`; the primitive encodings they call live in the
repository's `serialization.rs`, which is not under `src/`, and are
modelled from the spec (§4.B): little-endian fixed-width integers,
`char` as its 4-byte scalar, strings as a `u32` length prefix plus
bytes, `Option` as a `0u8`/`1u8` tag, and a single deserialize-error
kind (here `Option.none`). -/

/-- Modelled from the spec: little-endian `u16`. -/
def toLE2 (n : Nat) : List Nat := [n % 256, n / 256 % 256]

/-- Modelled from the spec: little-endian `u32`. -/
def toLE4 (n : Nat) : List Nat :=
  [n % 256, n / 256 % 256, n / 65536 % 256, n / 16777216 % 256]

/-- Modelled from the spec: deserialize one byte. -/
def deserializeU8 : List Nat → Option (Nat × List Nat)
  | [] => Option.none
  | b :: r => some (b, r)

/-- Modelled from the spec: deserialize a little-endian `u16`. -/
def deserializeU16 : List Nat → Option (Nat × List Nat)
  | b0 :: b1 :: r => some (b0 + 256 * b1, r)
  | _ => Option.none

/-- Modelled from the spec: deserialize a little-endian `u32`. -/
def deserializeU32 : List Nat → Option (Nat × List Nat)
  | b0 :: b1 :: b2 :: b3 :: r =>
    some (b0 + 256 * b1 + 65536 * b2 + 16777216 * b3, r)
  | _ => Option.none

/-- Modelled from the spec: a deserialized `char` must be a valid
scalar value, otherwise the single deserialize-error kind results. -/
def charFromNat (n : Nat) : Option Char :=
  if h : n.isValidChar then some (Char.ofNatAux n h) else Option.none

/-- `serialize_key` from `lib/client_event.rs` (discriminants 0–17). -/
def serializeKey : Key → List Nat
  | Key.none => [0]
  | Key.backspace => [1]
  | Key.enter => [2]
  | Key.left => [3]
  | Key.right => [4]
  | Key.up => [5]
  | Key.down => [6]
  | Key.home => [7]
  | Key.endKey => [8]
  | Key.pageUp => [9]
  | Key.pageDown => [10]
  | Key.tab => [11]
  | Key.delete => [12]
  | Key.f n => 13 :: toLE4 n
  | Key.char c => 14 :: toLE4 c.toNat
  | Key.ctrl c => 15 :: toLE4 c.toNat
  | Key.alt c => 16 :: toLE4 c.toNat
  | Key.esc => [17]

/-- `deserialize_key` from `lib/client_event.rs`: unknown discriminants
are a deserialize error.  (Rust's `match` on the discriminant byte is
written as the equivalent chain of equality tests.) -/
def deserializeKey (bs : List Nat) : Option (Key × List Nat) :=
  match deserializeU8 bs with
  | Option.none => Option.none
  | some (d, r) =>
    if d = 0 then some (Key.none, r)
    else if d = 1 then some (Key.backspace, r)
    else if d = 2 then some (Key.enter, r)
    else if d = 3 then some (Key.left, r)
    else if d = 4 then some (Key.right, r)
    else if d = 5 then some (Key.up, r)
    else if d = 6 then some (Key.down, r)
    else if d = 7 then some (Key.home, r)
    else if d = 8 then some (Key.endKey, r)
    else if d = 9 then some (Key.pageUp, r)
    else if d = 10 then some (Key.pageDown, r)
    else if d = 11 then some (Key.tab, r)
    else if d = 12 then some (Key.delete, r)
    else if d = 13 then
      (deserializeU32 r).bind fun p => some (Key.f p.1, p.2)
    else if d = 14 then
      (deserializeU32 r).bind fun p =>
        (charFromNat p.1).bind fun c => some (Key.char c, p.2)
    else if d = 15 then
      (deserializeU32 r).bind fun p =>
        (charFromNat p.1).bind fun c => some (Key.ctrl c, p.2)
    else if d = 16 then
      (deserializeU32 r).bind fun p =>
        (charFromNat p.1).bind fun c => some (Key.alt c, p.2)
    else if d = 17 then some (Key.esc, r)
    else Option.none

/-- `ClientEvent` from `lib/client_event.rs`.  `ClientHandle` (the
spec's opaque dense index, whose defining module is not under `src/`)
is modelled from the spec as a `Nat` on a `u32` wire; command text is
kept as its byte list. -/
inductive ClientEvent where
  | key (target : Option Nat) (k : Key)
  | resize (target : Option Nat) (width height : Nat)
  | command (target : Option Nat) (text : List Nat)
  deriving DecidableEq

/-- Modelled from the spec: `Option<ClientHandle>` on the wire — a
`0u8`/`1u8` tag, then the handle as a `u32`. -/
def serializeOptionHandle : Option Nat → List Nat
  | Option.none => [0]
  | some h => 1 :: toLE4 h

/-- Modelled from the spec: inverse of `serializeOptionHandle`; any
other tag byte is a deserialize error. -/
def deserializeOptionHandle (bs : List Nat) : Option (Option Nat × List Nat) :=
  match deserializeU8 bs with
  | Option.none => Option.none
  | some (tag, r) =>
    if tag = 0 then some (Option.none, r)
    else if tag = 1 then
      (deserializeU32 r).bind fun p => some (some p.1, p.2)
    else Option.none

/-- Modelled from the spec: a string as `u32` length prefix plus bytes. -/
def serializeStr (s : List Nat) : List Nat := toLE4 s.length ++ s

/-- Modelled from the spec: inverse of `serializeStr`; a length that
overruns the input is a deserialize error. -/
def deserializeStr (bs : List Nat) : Option (List Nat × List Nat) :=
  (deserializeU32 bs).bind fun p =>
    if p.1 ≤ p.2.length then some (p.2.take p.1, p.2.drop p.1) else Option.none

/-- `Serialize for ClientEvent::serialize` from `lib/client_event.rs`
(discriminants `Key = 0`, `Resize = 1`, `Command = 2`). -/
def serializeEvent : ClientEvent → List Nat
  | ClientEvent.key t k => 0 :: (serializeOptionHandle t ++ serializeKey k)
  | ClientEvent.resize t w h => 1 :: (serializeOptionHandle t ++ toLE2 w ++ toLE2 h)
  | ClientEvent.command t s => 2 :: (serializeOptionHandle t ++ serializeStr s)

/-- `Serialize for ClientEvent::deserialize` from
`lib/client_event.rs`. -/
def deserializeEvent (bs : List Nat) : Option (ClientEvent × List Nat) :=
  match deserializeU8 bs with
  | Option.none => Option.none
  | some (d, r) =>
    if d = 0 then
      (deserializeOptionHandle r).bind fun pt =>
        (deserializeKey pt.2).bind fun pk =>
          some (ClientEvent.key pt.1 pk.1, pk.2)
    else if d = 1 then
      (deserializeOptionHandle r).bind fun pt =>
        (deserializeU16 pt.2).bind fun pw =>
          (deserializeU16 pw.2).bind fun ph =>
            some (ClientEvent.resize pt.1 pw.1 ph.1, ph.2)
    else if d = 2 then
      (deserializeOptionHandle r).bind fun pt =>
        (deserializeStr pt.2).bind fun ps =>
          some (ClientEvent.command pt.1 ps.1, ps.2)
    else Option.none

/-- Serialization of a whole event batch, in order. -/
def serializeEvents : List ClientEvent → List Nat
  | [] => []
  | e :: es => serializeEvent e ++ serializeEvents es

/-! ## `src/connection.rs`: the framed reader and `receive_keys` -/

/-- Modelled from the spec: `EditorLoop` — the callback of
`receive_keys` "may return `Quit`" (§4.F); `editor.rs` is not under
`src/`. -/
inductive EditorLoop where
  | quit
  | cont
  deriving DecidableEq

/-- Result alternatives of `ClientEventDeserializer::deserialize_next`
as `receive_keys` matches on them. -/
inductive DeserializeNextResult where
  | someEvent (e : ClientEvent) (rest : List Nat)
  | noneLeft
  | errored

/-- Modelled from the spec: `ClientEventDeserializer::deserialize_next`
(the deserializer type is not under `src/`): with no bytes left there is
no further event; otherwise decode one event, any failure being the
single deserialize-error kind (§4.B, §4.F "decodes as many
`ClientEvent`s as are complete"). -/
def deserializeNext (bs : List Nat) : DeserializeNextResult :=
  match bs with
  | [] => DeserializeNextResult.noneLeft
  | _ :: _ =>
    match deserializeEvent bs with
    | some (e, r) => DeserializeNextResult.someEvent e r
    | Option.none => DeserializeNextResult.errored

theorem deserializeU8_len {bs : List Nat} {n : Nat} {r : List Nat}
    (h : deserializeU8 bs = some (n, r)) : r.length + 1 = bs.length := by
  cases bs with
  | nil => simp [deserializeU8] at h
  | cons b t =>
    simp only [deserializeU8, Option.some.injEq, Prod.mk.injEq] at h
    rw [← h.2]
    simp

theorem deserializeU16_len {bs : List Nat} {n : Nat} {r : List Nat}
    (h : deserializeU16 bs = some (n, r)) : r.length + 2 = bs.length := by
  match bs with
  | [] => simp [deserializeU16] at h
  | [_] => simp [deserializeU16] at h
  | _ :: _ :: t =>
    simp only [deserializeU16, Option.some.injEq, Prod.mk.injEq] at h
    rw [← h.2]
    simp

theorem deserializeU32_len {bs : List Nat} {n : Nat} {r : List Nat}
    (h : deserializeU32 bs = some (n, r)) : r.length + 4 = bs.length := by
  match bs with
  | [] => simp [deserializeU32] at h
  | [_] => simp [deserializeU32] at h
  | [_, _] => simp [deserializeU32] at h
  | [_, _, _] => simp [deserializeU32] at h
  | _ :: _ :: _ :: _ :: t =>
    simp only [deserializeU32, Option.some.injEq, Prod.mk.injEq] at h
    rw [← h.2]
    simp

theorem deserializeOptionHandle_len {bs : List Nat} {t : Option Nat}
    {r : List Nat} (h : deserializeOptionHandle bs = some (t, r)) :
    r.length < bs.length := by
  match bs with
  | [] => simp [deserializeOptionHandle, deserializeU8] at h
  | tag :: r0 =>
    simp only [deserializeOptionHandle, deserializeU8] at h
    split_ifs at h
    · simp only [Option.some.injEq, Prod.mk.injEq] at h
      rw [← h.2]
      simp
    · cases h32 : deserializeU32 r0 with
      | none => rw [h32] at h; simp at h
      | some p =>
        rw [h32] at h
        cases p with
        | mk n rest =>
          have h4 := deserializeU32_len h32
          simp only [Option.some_bind, Option.some.injEq, Prod.mk.injEq] at h
          rw [← h.2]
          simp only [List.length_cons]
          omega

theorem deserializeStr_len {bs : List Nat} {s r : List Nat}
    (h : deserializeStr bs = some (s, r)) : r.length < bs.length := by
  unfold deserializeStr at h
  cases h32 : deserializeU32 bs with
  | none => rw [h32] at h; simp at h
  | some p =>
    rw [h32] at h
    cases p with
    | mk n r1 =>
      have h4 := deserializeU32_len h32
      simp only [Option.some_bind] at h
      split at h
      · simp only [Option.some.injEq, Prod.mk.injEq] at h
        rw [← h.2]
        simp only [List.length_drop]
        omega
      · simp at h

theorem u32TailLt {r0 r : List Nat} {n0 : Nat} {mk : Nat → Key} {k : Key}
    (hlen : r0.length < n0)
    (h : (deserializeU32 r0).bind (fun p => some (mk p.1, p.2)) = some (k, r)) :
    r.length < n0 := by
  cases h32 : deserializeU32 r0 with
  | none => rw [h32] at h; simp at h
  | some p =>
    rw [h32] at h
    cases p with
    | mk n rest =>
      have h4 := deserializeU32_len h32
      simp only [Option.some_bind, Option.some.injEq, Prod.mk.injEq] at h
      rw [← h.2]
      omega

theorem u32CharTailLt {r0 r : List Nat} {n0 : Nat} {mk : Char → Key} {k : Key}
    (hlen : r0.length < n0)
    (h : (deserializeU32 r0).bind
      (fun p => (charFromNat p.1).bind fun c => some (mk c, p.2)) = some (k, r)) :
    r.length < n0 := by
  cases h32 : deserializeU32 r0 with
  | none => rw [h32] at h; simp at h
  | some p =>
    rw [h32] at h
    cases p with
    | mk n rest =>
      have h4 := deserializeU32_len h32
      simp only [Option.some_bind] at h
      cases hc : charFromNat n with
      | none => rw [hc] at h; simp at h
      | some c =>
        rw [hc] at h
        simp only [Option.some_bind, Option.some.injEq, Prod.mk.injEq] at h
        rw [← h.2]
        omega

theorem deserializeKey_len {bs : List Nat} {k : Key} {r : List Nat}
    (h : deserializeKey bs = some (k, r)) : r.length < bs.length := by
  match bs with
  | [] => simp [deserializeKey, deserializeU8] at h
  | d :: r0 =>
    simp only [deserializeKey, deserializeU8] at h
    have hlen : r0.length < (d :: r0).length := by simp
    by_cases h0 : d = 0
    · rw [if_pos h0] at h
      simp only [Option.some.injEq, Prod.mk.injEq] at h
      rw [← h.2]; exact hlen
    rw [if_neg h0] at h
    by_cases h1 : d = 1
    · rw [if_pos h1] at h
      simp only [Option.some.injEq, Prod.mk.injEq] at h
      rw [← h.2]; exact hlen
    rw [if_neg h1] at h
    by_cases h2 : d = 2
    · rw [if_pos h2] at h
      simp only [Option.some.injEq, Prod.mk.injEq] at h
      rw [← h.2]; exact hlen
    rw [if_neg h2] at h
    by_cases h3 : d = 3
    · rw [if_pos h3] at h
      simp only [Option.some.injEq, Prod.mk.injEq] at h
      rw [← h.2]; exact hlen
    rw [if_neg h3] at h
    by_cases h4 : d = 4
    · rw [if_pos h4] at h
      simp only [Option.some.injEq, Prod.mk.injEq] at h
      rw [← h.2]; exact hlen
    rw [if_neg h4] at h
    by_cases h5 : d = 5
    · rw [if_pos h5] at h
      simp only [Option.some.injEq, Prod.mk.injEq] at h
      rw [← h.2]; exact hlen
    rw [if_neg h5] at h
    by_cases h6 : d = 6
    · rw [if_pos h6] at h
      simp only [Option.some.injEq, Prod.mk.injEq] at h
      rw [← h.2]; exact hlen
    rw [if_neg h6] at h
    by_cases h7 : d = 7
    · rw [if_pos h7] at h
      simp only [Option.some.injEq, Prod.mk.injEq] at h
      rw [← h.2]; exact hlen
    rw [if_neg h7] at h
    by_cases h8 : d = 8
    · rw [if_pos h8] at h
      simp only [Option.some.injEq, Prod.mk.injEq] at h
      rw [← h.2]; exact hlen
    rw [if_neg h8] at h
    by_cases h9 : d = 9
    · rw [if_pos h9] at h
      simp only [Option.some.injEq, Prod.mk.injEq] at h
      rw [← h.2]; exact hlen
    rw [if_neg h9] at h
    by_cases h10 : d = 10
    · rw [if_pos h10] at h
      simp only [Option.some.injEq, Prod.mk.injEq] at h
      rw [← h.2]; exact hlen
    rw [if_neg h10] at h
    by_cases h11 : d = 11
    · rw [if_pos h11] at h
      simp only [Option.some.injEq, Prod.mk.injEq] at h
      rw [← h.2]; exact hlen
    rw [if_neg h11] at h
    by_cases h12 : d = 12
    · rw [if_pos h12] at h
      simp only [Option.some.injEq, Prod.mk.injEq] at h
      rw [← h.2]; exact hlen
    rw [if_neg h12] at h
    by_cases h13 : d = 13
    · rw [if_pos h13] at h
      exact u32TailLt hlen h
    rw [if_neg h13] at h
    by_cases h14 : d = 14
    · rw [if_pos h14] at h
      exact u32CharTailLt hlen h
    rw [if_neg h14] at h
    by_cases h15 : d = 15
    · rw [if_pos h15] at h
      exact u32CharTailLt hlen h
    rw [if_neg h15] at h
    by_cases h16 : d = 16
    · rw [if_pos h16] at h
      exact u32CharTailLt hlen h
    rw [if_neg h16] at h
    by_cases h17 : d = 17
    · rw [if_pos h17] at h
      simp only [Option.some.injEq, Prod.mk.injEq] at h
      rw [← h.2]; exact hlen
    rw [if_neg h17] at h
    simp at h

theorem deserializeEvent_len {bs : List Nat} {e : ClientEvent}
    {r : List Nat} (h : deserializeEvent bs = some (e, r)) :
    r.length < bs.length := by
  match bs with
  | [] => simp [deserializeEvent, deserializeU8] at h
  | d :: r0 =>
    simp only [deserializeEvent, deserializeU8] at h
    have hlen : r0.length < (d :: r0).length := by simp
    split_ifs at h
    · -- Key event
      cases hoh : deserializeOptionHandle r0 with
      | none => rw [hoh] at h; simp at h
      | some pt =>
        rw [hoh] at h
        cases pt with
        | mk t r1 =>
          have h2 := deserializeOptionHandle_len hoh
          simp only [Option.some_bind] at h
          cases hk : deserializeKey r1 with
          | none => rw [hk] at h; simp at h
          | some pk =>
            rw [hk] at h
            cases pk with
            | mk kk r2 =>
              have h3 := deserializeKey_len hk
              simp only [Option.some_bind, Option.some.injEq,
                Prod.mk.injEq] at h
              rw [← h.2]
              simp only [List.length_cons]
              omega
    · -- Resize event
      cases hoh : deserializeOptionHandle r0 with
      | none => rw [hoh] at h; simp at h
      | some pt =>
        rw [hoh] at h
        cases pt with
        | mk t r1 =>
          have h2 := deserializeOptionHandle_len hoh
          simp only [Option.some_bind] at h
          cases h16 : deserializeU16 r1 with
          | none => rw [h16] at h; simp at h
          | some pw =>
            rw [h16] at h
            cases pw with
            | mk w r2 =>
              have h3 := deserializeU16_len h16
              simp only [Option.some_bind] at h
              cases h16b : deserializeU16 r2 with
              | none => rw [h16b] at h; simp at h
              | some ph =>
                rw [h16b] at h
                cases ph with
                | mk hh r3 =>
                  have h4 := deserializeU16_len h16b
                  simp only [Option.some_bind, Option.some.injEq,
                    Prod.mk.injEq] at h
                  rw [← h.2]
                  simp only [List.length_cons]
                  omega
    · -- Command event
      cases hoh : deserializeOptionHandle r0 with
      | none => rw [hoh] at h; simp at h
      | some pt =>
        rw [hoh] at h
        cases pt with
        | mk t r1 =>
          have h2 := deserializeOptionHandle_len hoh
          simp only [Option.some_bind] at h
          cases hs : deserializeStr r1 with
          | none => rw [hs] at h; simp at h
          | some ps =>
            rw [hs] at h
            cases ps with
            | mk s r2 =>
              have h3 := deserializeStr_len hs
              simp only [Option.some_bind, Option.some.injEq,
                Prod.mk.injEq] at h
              rw [← h.2]
              simp only [List.length_cons]
              omega

theorem deserializeNext_len {bs : List Nat} {e : ClientEvent}
    {r : List Nat} (h : deserializeNext bs = DeserializeNextResult.someEvent e r) :
    r.length < bs.length := by
  unfold deserializeNext at h
  match bs with
  | [] => simp at h
  | b :: t =>
    simp only at h
    cases he : deserializeEvent (b :: t) with
    | none => rw [he] at h; simp at h
    | some v =>
      rw [he] at h
      cases v with
      | mk e2 r2 =>
        simp only [DeserializeNextResult.someEvent.injEq] at h
        rw [← h.2]
        exact deserializeEvent_len he

/-- The undivided decoding of a byte stream, with structural fuel:
every decoded event consumes at least its discriminant byte
(`deserializeNext_len`), so the `bs.length + 1` units supplied by
`decodeAll` always suffice, and the fuel-exhausted base case returns
the same value as an exhausted stream. -/
def decodeAllGo : Nat → List Nat → List ClientEvent
  | 0, _ => []
  | fuel + 1, bs =>
    match deserializeNext bs with
    | DeserializeNextResult.someEvent e r => e :: decodeAllGo fuel r
    | DeserializeNextResult.noneLeft => []
    | DeserializeNextResult.errored => []

/-- The undivided decoding of a byte stream: events in order until the
stream is exhausted or malformed. -/
def decodeAll (bs : List Nat) : List ClientEvent :=
  decodeAllGo (bs.length + 1) bs

/-- The decode loop of `ConnectionWithClientCollection::receive_keys`,
with structural fuel (sufficient for the same reason as `decodeAllGo`):
deliver each decoded event to the callback, stopping after the first
`Quit`; `last` models the running `last_result` (initialised `Quit` at
the call site).  Returns the delivered events and `some lastResult` for
`Ok`, `Option.none` for the `Err` path on a malformed buffer. -/
def deliverLoopGo (f : ClientEvent → EditorLoop) :
    Nat → List Nat → EditorLoop → List ClientEvent × Option EditorLoop
  | 0, _, last => ([], some last)
  | fuel + 1, bs, last =>
    match deserializeNext bs with
    | DeserializeNextResult.someEvent e r =>
      let res := f e
      if res = EditorLoop.quit then ([e], some res)
      else
        let rest := deliverLoopGo f fuel r res
        (e :: rest.1, rest.2)
    | DeserializeNextResult.noneLeft => ([], some last)
    | DeserializeNextResult.errored => ([], Option.none)

/-- The decode loop of `receive_keys` over a byte slice. -/
def deliverLoop (f : ClientEvent → EditorLoop) (bs : List Nat)
    (last : EditorLoop) : List ClientEvent × Option EditorLoop :=
  deliverLoopGo f (bs.length + 1) bs last

/-- `ReadBuf` from `src/connection.rs`: a growable byte array with a
write length and a read position.  `ReadBuf::new` allocates 2 KiB of
zeroes. -/
structure ReadBuf where
  buf : List Nat
  len : Nat
  position : Nat

/-- `ReadBuf::new()`. -/
def ReadBuf.new : ReadBuf := ⟨List.replicate 2048 0, 0, 0⟩

/-- Copy `data` into `buf` starting at `pos` (the effect of
`reader.read(&mut buf[len..])` writing `data.length` bytes). -/
def writeAt (buf : List Nat) (pos : Nat) (data : List Nat) : List Nat :=
  buf.take pos ++ data ++ buf.drop (pos + data.length)

/-- The read loop of `ReadGuard::read_from`: each `read` returns
`min(space, available)` bytes; on a partial fill the loop breaks, on a
full fill the buffer doubles (`resize(len * 2, 0)`) and reading
continues; `WouldBlock` (no bytes left) ends the loop.  The fuel is an
upper bound on the iteration count — each iteration either consumes
input, is the sole possible zero-progress resize step, or is last. -/
def readFromLoop : Nat → List Nat → Nat → List Nat → List Nat × Nat
  | 0, buf, len, _ => (buf, len)
  | fuel + 1, buf, len, incoming =>
    let t := Nat.min (buf.length - len) incoming.length
    let buf2 := writeAt buf len (incoming.take t)
    let len2 := len + t
    if len2 < buf2.length then (buf2, len2)
    else readFromLoop fuel (buf2 ++ List.replicate buf2.length 0) len2
      (incoming.drop t)

/-- `ReadGuard::read_from` from `src/connection.rs`, with `incoming`
the bytes the operating system has available on the stream. -/
def readFrom (rb : ReadBuf) (incoming : List Nat) : ReadBuf :=
  let r := readFromLoop (incoming.length + 2) rb.buf rb.len incoming
  { rb with buf := r.1, len := r.2 }

/-- `ReadGuard::as_bytes`: the slice `buf[position .. len]`. -/
def readGuardBytes (rb : ReadBuf) : List Nat :=
  (rb.buf.drop rb.position).take (rb.len - rb.position)

/-- `Drop for ReadGuard`: reset `len` and `position` to zero (the byte
storage itself is retained). -/
def guardDrop (rb : ReadBuf) : ReadBuf := { rb with len := 0, position := 0 }

/-- `ConnectionWithClient` from `src/connection.rs`: a tuple struct
holding the stream only — no read buffer.  The stream is abstracted to
an identifier. -/
structure ConnectionWithClient where
  stream : Nat

/-- `ConnectionWithClientCollection` from `src/connection.rs` (the
listener plays no role in the modelled operations and is omitted):
slotted connections, the pending closed indexes, and one `ReadBuf` for
the whole collection. -/
structure ConnectionWithClientCollection where
  connections : List (Option ConnectionWithClient)
  closedConnectionIndexes : List Nat
  readBuf : ReadBuf

/-- `ConnectionWithClientCollection::receive_keys` from
`src/connection.rs`: look up the slot, read the stream's available
bytes into the collection's read buffer, decode and deliver events
until `Quit`, exhaustion or a malformed buffer, and drop the guard
(resetting the buffer) on every path.  Returns the new state, the
events delivered to the callback, and `some result` for `Ok` /
`Option.none` for the `Err` path. -/
def receiveKeys (st : ConnectionWithClientCollection) (handle : Nat)
    (incoming : List Nat) (f : ClientEvent → EditorLoop) :
    ConnectionWithClientCollection × List ClientEvent × Option EditorLoop :=
  match st.connections.getD handle Option.none with
  | Option.none => (st, [], some EditorLoop.quit)
  | some _ =>
    let rb := readFrom st.readBuf incoming
    let bytes := readGuardBytes rb
    let r := deliverLoop f bytes EditorLoop.quit
    ({ st with readBuf := guardDrop rb }, r.1, r.2)

/-! ## Edit shapes

`BufferContent` and its `insert_text` / `delete_range` live in
`buffer.rs`, which is not under `src/`.  The following predicates are
modelled from the spec: they record exactly the line-level shape an
insertion or deletion reported through a `BufferRange` leaves behind —
lines before `from.line_index` unchanged, and the tail beyond the edit
shifted — which is all `on_insert` / `on_delete` rely on. -/

/-- Modelled from the spec: the buffer `b1` results from `b0` by an
insertion whose reported range is `r` (§4.H: `B - A` new lines appear
after line `A`; lines before `A` and after the edit keep their text). -/
def InsertShape (b0 b1 : List (List Nat)) (r : BufferRange) : Prop :=
  r.fromPos.lineIndex ≤ r.toPos.lineIndex ∧
  r.fromPos.lineIndex < b0.length ∧
  r.toPos.lineIndex < b1.length ∧
  b1.length = b0.length + (r.toPos.lineIndex - r.fromPos.lineIndex) ∧
  b1.take r.fromPos.lineIndex = b0.take r.fromPos.lineIndex ∧
  b1.drop (r.toPos.lineIndex + 1) = b0.drop (r.fromPos.lineIndex + 1)

/-- Modelled from the spec: the buffer `b1` results from `b0` by a
deletion whose reported range is `r` (lines `[from, to)` disappear, the
line at `from` is the merged remainder, later lines shift up). -/
def DeleteShape (b0 b1 : List (List Nat)) (r : BufferRange) : Prop :=
  r.fromPos.lineIndex ≤ r.toPos.lineIndex ∧
  r.toPos.lineIndex < b0.length ∧
  r.fromPos.lineIndex < b1.length ∧
  b1.length = b0.length - (r.toPos.lineIndex - r.fromPos.lineIndex) ∧
  b1.take r.fromPos.lineIndex = b0.take r.fromPos.lineIndex ∧
  b1.drop (r.fromPos.lineIndex + 1) = b0.drop (r.toPos.lineIndex + 1)

instance (b0 b1 : List (List Nat)) (r : BufferRange) :
    Decidable (InsertShape b0 b1 r) := by
  unfold InsertShape
  infer_instance

instance (b0 b1 : List (List Nat)) (r : BufferRange) :
    Decidable (DeleteShape b0 b1 r) := by
  unfold DeleteShape
  infer_instance

/-- An overlay reachable from a full `highligh_all` by a sequence of
edits, each applied to the buffer (shape recorded by the range) and to
the overlay by the corresponding `on_insert` / `on_delete` call. -/
inductive EditApplied (syn : Syntax) : List (List Nat) → List HLine → Prop where
  | init (b : List (List Nat)) : EditApplied syn b (highlighAll syn b)
  | ins (b0 b1 : List (List Nat)) (r : BufferRange) (ov : List HLine) :
      EditApplied syn b0 ov → InsertShape b0 b1 r →
      EditApplied syn b1 (onInsert syn b1 r ov)
  | del (b0 b1 : List (List Nat)) (r : BufferRange) (ov : List HLine) :
      EditApplied syn b0 ov → DeleteShape b0 b1 r →
      EditApplied syn b1 (onDelete syn b1 r ov)

/-- No rule of the syntax ever returns `Pending`: the syntax has no
multi-line continuation. -/
def NoPending (syn : Syntax) : Prop :=
  ∀ kp ∈ syn.rules,
    (∀ s st, kp.2.matchesInput s ≠ MatchResult.pending st) ∧
    (∀ s st st2, kp.2.matchesWithState s st ≠ MatchResult.pending st2)

/-! ## Auxiliary predicates and concrete instances used by the claims -/

/-- Payload bounds under which a `Key` modelled over `Nat` corresponds
to a Rust value: `F`'s count fits the wire's `u32`.  (A Lean `Char` is
a valid scalar by construction.) -/
def KeyWF : Key → Prop
  | Key.f n => n < 4294967296
  | _ => True

/-- A handle fits the modelled `u32` wire. -/
def HandleWF : Option Nat → Prop
  | Option.none => True
  | some h => h < 4294967296

/-- Payload bounds under which a `ClientEvent` modelled over `Nat`
corresponds to a Rust value. -/
def EventWF : ClientEvent → Prop
  | ClientEvent.key t k => HandleWF t ∧ KeyWF k
  | ClientEvent.resize t w h => HandleWF t ∧ w < 65536 ∧ h < 65536
  | ClientEvent.command t s => HandleWF t ∧ s.length < 4294967296

/-- The subset of keys whose `Display` rendering lies in `parse_key`'s
input language: `Char` with an ASCII scalar, `Ctrl`/`Alt` with an
ASCII-alphanumeric scalar, `F` with a one- or two-digit count. -/
def DisplayParseable : Key → Prop
  | Key.char c => isAsciiChar c = true
  | Key.ctrl c => isAsciiAlphanumericChar c = true
  | Key.alt c => isAsciiAlphanumericChar c = true
  | Key.f n => n ≤ 99
  | _ => True

/-- A callback that never asks to quit. -/
def cbCont : ClientEvent → EditorLoop := fun _ => EditorLoop.cont

/-- Two-line buffer `"/* a" / "*/ b"` (bytes of the text). -/
def exDelB0 : List (List Nat) := [[47, 42, 32, 97], [42, 47, 32, 98]]

/-- The same buffer after deleting the two bytes `/*` at the start of
line 0: `" a" / "*/ b"`. -/
def exDelB1 : List (List Nat) := [[32, 97], [42, 47, 32, 98]]

/-- The range that deletion reports: `(0,0)..(0,2)`. -/
def exDelRange : BufferRange := ⟨⟨0, 0⟩, ⟨0, 2⟩⟩

/-- Six-line buffer `"/*" / "a" / "b" / "c" / "*/" / "d"`. -/
def exMulB0 : List (List Nat) :=
  [[47, 42], [97], [98], [99], [42, 47], [100]]

/-- The same buffer after deleting lines 0 and 1 entirely:
`"b" / "c" / "*/" / "d"`. -/
def exMulB1 : List (List Nat) := [[98], [99], [42, 47], [100]]

/-- The range that multi-line deletion reports: `(0,0)..(2,0)`. -/
def exMulRange : BufferRange := ⟨⟨0, 0⟩, ⟨2, 0⟩⟩

/-- A pattern that matches any slice with length 2, used to exhibit the
tie-breaking of rule selection. -/
def okTwoPattern : Pattern :=
  ⟨fun _ => MatchResult.ok 2, fun _ _ => MatchResult.err⟩

/-- Two rules returning the same match length on every slice: a tie. -/
def tieSyntax : Syntax :=
  ⟨[(TokenKind.keyword, okTwoPattern), (TokenKind.symbol, okTwoPattern)]⟩

/-- A server collection with one connected client in slot 0. -/
def oneConnState : ConnectionWithClientCollection :=
  ⟨[some ⟨0⟩], [], ReadBuf.new⟩

/-- A server collection with two connected clients in slots 0 and 1. -/
def twoConnState : ConnectionWithClientCollection :=
  ⟨[some ⟨0⟩, some ⟨1⟩], [], ReadBuf.new⟩

/-- `ClientEvent::Command(None, "quit")` (bytes of `"quit"`). -/
def quitCommandEvent : ClientEvent :=
  ClientEvent.command Option.none [113, 117, 105, 116]

/-- `ClientEvent::Key(None, Esc)`. -/
def escKeyEvent : ClientEvent := ClientEvent.key Option.none Key.esc

/-- A resize event targeted at handle 3. -/
def resizeEvent : ClientEvent := ClientEvent.resize (some 3) 80 24

/-- A callback that quits on any command event and continues otherwise. -/
def quitOnCommand : ClientEvent → EditorLoop := fun e =>
  match e with
  | ClientEvent.command _ _ => EditorLoop.quit
  | _ => EditorLoop.cont

/-- The highlighted line a single buffer line gets when parsed with a
`Finished` carry (the only carry that occurs for a syntax with no
multi-line continuation). -/
def lineHighlight (syn : Syntax) (line : List Nat) : HLine :=
  ⟨(parseLine syn line LineState.finished).2,
   (parseLine syn line LineState.finished).1⟩

/-- The per-line (carry-free) highlighting of a whole buffer. -/
def highlightMap (syn : Syntax) (buffer : List (List Nat)) : List HLine :=
  buffer.map (lineHighlight syn)

/-- A syntax with no rules at all (trivially without `Pending`). -/
def noRulesSyntax : Syntax := ⟨[]⟩

/-- Two-line buffer `"a" / "b"`. -/
def exTinyB0 : List (List Nat) := [[97], [98]]

/-- The same buffer after deleting line 0 entirely: `"b"`. -/
def exTinyB1 : List (List Nat) := [[98]]

/-- The range that deletion reports: `(0,0)..(1,0)`. -/
def exTinyRange : BufferRange := ⟨⟨0, 0⟩, ⟨1, 0⟩⟩

/-! # Theorems

Shared helper lemmas come first; every claim then has exactly one
theorem, plus a witness or counterexample where the rules require one. -/

theorem toLE4_u32 {n : Nat} (hn : n < 4294967296) (t : List Nat) :
    deserializeU32 (toLE4 n ++ t) = some (n, t) := by
  unfold toLE4 deserializeU32
  simp only [List.cons_append, List.nil_append]
  have he : n % 256 + 256 * (n / 256 % 256) + 65536 * (n / 65536 % 256) +
      16777216 * (n / 16777216 % 256) = n := by omega
  rw [he]

theorem toLE2_u16 {n : Nat} (hn : n < 65536) (t : List Nat) :
    deserializeU16 (toLE2 n ++ t) = some (n, t) := by
  unfold toLE2 deserializeU16
  simp only [List.cons_append, List.nil_append]
  have he : n % 256 + 256 * (n / 256 % 256) = n := by omega
  rw [he]

theorem charToNat_valid (c : Char) : Nat.isValidChar c.toNat := c.valid

theorem charToNat_lt (c : Char) : c.toNat < 4294967296 := by
  have h := charToNat_valid c
  rcases h with h | ⟨h1, h2⟩ <;> omega

theorem charFromNat_toNat (c : Char) : charFromNat c.toNat = some c := by
  unfold charFromNat
  have hv : (c.toNat).isValidChar := charToNat_valid c
  rw [dif_pos hv]
  have h := Char.ofNat_toNat c
  unfold Char.ofNat at h
  rw [dif_pos hv] at h
  rw [h]

theorem deserializeKey_branch13 (rest : List Nat) :
    deserializeKey (13 :: rest) =
      (deserializeU32 rest).bind (fun p => some (Key.f p.1, p.2)) := rfl

theorem deserializeKey_branch14 (rest : List Nat) :
    deserializeKey (14 :: rest) =
      (deserializeU32 rest).bind
        (fun p => (charFromNat p.1).bind fun c => some (Key.char c, p.2)) := rfl

theorem deserializeKey_branch15 (rest : List Nat) :
    deserializeKey (15 :: rest) =
      (deserializeU32 rest).bind
        (fun p => (charFromNat p.1).bind fun c => some (Key.ctrl c, p.2)) := rfl

theorem deserializeKey_branch16 (rest : List Nat) :
    deserializeKey (16 :: rest) =
      (deserializeU32 rest).bind
        (fun p => (charFromNat p.1).bind fun c => some (Key.alt c, p.2)) := rfl

theorem deserializeKey_serializeKey (k : Key) (hk : KeyWF k) (t : List Nat) :
    deserializeKey (serializeKey k ++ t) = some (k, t) := by
  cases k with
  | f n =>
    have hn : n < 4294967296 := hk
    simp only [serializeKey, List.cons_append]
    rw [deserializeKey_branch13, toLE4_u32 hn]
    rfl
  | char c =>
    simp only [serializeKey, List.cons_append]
    rw [deserializeKey_branch14, toLE4_u32 (charToNat_lt c)]
    simp [charFromNat_toNat]
  | ctrl c =>
    simp only [serializeKey, List.cons_append]
    rw [deserializeKey_branch15, toLE4_u32 (charToNat_lt c)]
    simp [charFromNat_toNat]
  | alt c =>
    simp only [serializeKey, List.cons_append]
    rw [deserializeKey_branch16, toLE4_u32 (charToNat_lt c)]
    simp [charFromNat_toNat]
  | _ => rfl

/-- **C6** — confirmed.  For every `Key` value of any variant (with the
`F` payload within the wire's `u32`, automatic in Rust), deserializing
the bytes produced by serializing the key yields back the same key. -/
theorem c6_key_codec_roundtrip (k : Key) (hk : KeyWF k) :
    deserializeKey (serializeKey k) = some (k, []) := by
  have h := deserializeKey_serializeKey k hk []
  simpa using h

/-- Witness for C6 at `Key.f 99`. -/
theorem c6_key_codec_roundtrip_witness :
    KeyWF (Key.f 99) ∧ deserializeKey (serializeKey (Key.f 99)) = some (Key.f 99, []) :=
  ⟨by show (99 : Nat) < 4294967296; decide,
    c6_key_codec_roundtrip (Key.f 99) (by show (99 : Nat) < 4294967296; decide)⟩

/-- The `'f'` branch of `parse_key`, exposed as a stuck-term equation:
everything before the digit characters is concrete. -/
theorem parseKey_f_branch (tail : List Char) :
    parseKey ('<' :: 'f' :: tail) =
      (match tail with
      | [] => Except.error KeyParseError.unexpectedEnd
      | c3 :: cs =>
        match toDigit10 c3 with
        | some d0 =>
          (match cs with
          | [] => Except.error KeyParseError.unexpectedEnd
          | c4 :: cs =>
            match toDigit10 c4 with
            | some d1 => do
              let r ← consumeChar '>' cs
              Except.ok (Key.f (d0 * 10 + d1), r)
            | Option.none =>
              if c4 = '>' then Except.ok (Key.f d0, cs)
              else Except.error (KeyParseError.invalidCharacter c4))
        | Option.none => Except.error (KeyParseError.invalidCharacter c3)) := rfl

theorem toDigit10_digit {c : Char} (h1 : 48 ≤ c.toNat) (h2 : c.toNat ≤ 57) :
    toDigit10 c = some (c.toNat - 48) := by
  unfold toDigit10
  rw [if_pos ⟨h1, h2⟩]

/-- **C9** — counterexample.  The claim says `parse_key` rejects
`<f0>`; in fact it succeeds and yields `F(0)`. -/
theorem c9_counterexample :
    parseKey ['<', 'f', '0', '>'] = Except.ok (Key.f 0, []) := rfl

/-- **C9** — corrected.  `parse_key` on `"<f" ++ digits ++ ">"`
succeeds exactly when one or two decimal digits are present — the
accepted counts are `0 ..= 99`, not `1 ..= 99` — and errors on zero or
three-plus digits. -/
theorem c9_f_key_digits (ds : List Char)
    (hds : ∀ c ∈ ds, 48 ≤ c.toNat ∧ c.toNat ≤ 57) :
    parseKey ('<' :: 'f' :: (ds ++ ['>'])) =
      match ds with
      | [] => Except.error (KeyParseError.invalidCharacter '>')
      | [d0] => Except.ok (Key.f (d0.toNat - 48), [])
      | [d0, d1] =>
        Except.ok (Key.f ((d0.toNat - 48) * 10 + (d1.toNat - 48)), [])
      | _ :: _ :: d2 :: _ => Except.error (KeyParseError.invalidCharacter d2) := by
  match ds with
  | [] => rfl
  | [d0] =>
    have h0 := hds d0 (by simp)
    rw [parseKey_f_branch]
    simp only [List.cons_append, List.nil_append, toDigit10_digit h0.1 h0.2]
    rfl
  | [d0, d1] =>
    have h0 := hds d0 (by simp)
    have h1 := hds d1 (by simp)
    rw [parseKey_f_branch]
    simp only [List.cons_append, List.nil_append, toDigit10_digit h0.1 h0.2,
      toDigit10_digit h1.1 h1.2]
    rfl
  | d0 :: d1 :: d2 :: rest =>
    have h0 := hds d0 (by simp)
    have h1 := hds d1 (by simp)
    have h2 := hds d2 (by simp)
    have hne : ¬(d2 = '>') := by
      intro he
      rw [he] at h2
      revert h2
      decide
    rw [parseKey_f_branch]
    simp only [List.cons_append, toDigit10_digit h0.1 h0.2,
      toDigit10_digit h1.1 h1.2]
    simp [consumeChar, hne]
    rfl

/-- Witness for C9 at the digit list `['4', '2']`. -/
theorem c9_f_key_digits_witness :
    (∀ c ∈ ['4', '2'], 48 ≤ c.toNat ∧ c.toNat ≤ 57) ∧
      parseKey ['<', 'f', '4', '2', '>'] = Except.ok (Key.f 42, []) :=
  ⟨by decide, by
    have h := c9_f_key_digits ['4', '2'] (by decide)
    exact h⟩

/-- The `'c'`-prefix branch of `parse_key` on a variable key character. -/
theorem parseKey_ctrl_shape (c : Char) :
    parseKey ['<', 'c', '-', c, '>'] =
      if isAsciiAlphanumericChar c = true then Except.ok (Key.ctrl c, [])
      else Except.error (KeyParseError.invalidCharacter c) := rfl

/-- The `'a'`-prefix branch of `parse_key` on a variable key character. -/
theorem parseKey_alt_shape (c : Char) :
    parseKey ['<', 'a', '-', c, '>'] =
      if isAsciiAlphanumericChar c = true then Except.ok (Key.alt c, [])
      else Except.error (KeyParseError.invalidCharacter c) := rfl

/-- `parse_key` on a single bare character other than `<` and `>`. -/
theorem parseKey_char_shape (c : Char) (h1 : c ≠ '<') (h2 : c ≠ '>') :
    parseKey [c] =
      if isAsciiChar c = true then Except.ok (Key.char c, [])
      else Except.error (KeyParseError.invalidCharacter c) := by
  simp only [parseKey]
  rw [if_neg h1, if_neg h2]

/-- **C4** — counterexample.  `Ctrl('$')` has the non-empty rendering
`"<c-$>"`, yet `parse_key` rejects it (`$` is not alphanumeric), so the
round-trip claimed for every key with non-empty `Display` fails. -/
theorem c4_counterexample :
    keyDisplay (Key.ctrl '$') ≠ [] ∧
      parseKey (keyDisplay (Key.ctrl '$')) =
        Except.error (KeyParseError.invalidCharacter '$') :=
  ⟨by decide, rfl⟩

/-- **C4** — corrected.  The display/parse round-trip holds for every
key whose `Display` is non-empty *and* whose payload lies in
`parse_key`'s language: `Char` with an ASCII scalar, `Ctrl`/`Alt` with
an ASCII-alphanumeric scalar, `F(n)` with `n ≤ 99`. -/
theorem c4_display_parse_roundtrip (k : Key) (hne : keyDisplay k ≠ [])
    (hp : DisplayParseable k) : parseKey (keyDisplay k) = Except.ok (k, []) := by
  cases k <;> try rfl
  case none => simp [keyDisplay] at hne
  case f n =>
    have hb : ∀ m, m < 100 →
        parseKey ('<' :: 'f' :: (natDecimalChars m ++ ['>'])) =
          Except.ok (Key.f m, []) := by decide
    have hn : n < 100 := by
      have : n ≤ 99 := hp
      omega
    exact hb n hn
  case char c =>
    by_cases hsp : c = ' '
    · rw [hsp]; rfl
    by_cases hlt : c = '<'
    · rw [hlt]; rfl
    by_cases hgt : c = '>'
    · rw [hgt]; rfl
    have hd : keyDisplay (Key.char c) = [c] := by
      simp [keyDisplay, hsp, hlt, hgt]
    have hp2 : isAsciiChar c = true := hp
    rw [hd, parseKey_char_shape c hlt hgt, if_pos hp2]
  case ctrl c =>
    have hd : keyDisplay (Key.ctrl c) = ['<', 'c', '-', c, '>'] := rfl
    have hp2 : isAsciiAlphanumericChar c = true := hp
    rw [hd, parseKey_ctrl_shape, if_pos hp2]
  case alt c =>
    have hd : keyDisplay (Key.alt c) = ['<', 'a', '-', c, '>'] := rfl
    have hp2 : isAsciiAlphanumericChar c = true := hp
    rw [hd, parseKey_alt_shape, if_pos hp2]

/-- Witness for C4 at `Key.f 7`. -/
theorem c4_display_parse_roundtrip_witness :
    (keyDisplay (Key.f 7) ≠ [] ∧ DisplayParseable (Key.f 7)) ∧
      parseKey (keyDisplay (Key.f 7)) = Except.ok (Key.f 7, []) :=
  ⟨⟨by decide, by show (7 : Nat) ≤ 99; decide⟩,
    c4_display_parse_roundtrip (Key.f 7) (by decide)
      (by show (7 : Nat) ≤ 99; decide)⟩

/-! ## C10: totality of `find_token_kind_at` -/

theorem binarySearchGo_some (f : Token → Ordering) (ts : List Token) :
    ∀ fuel left right i, binarySearchGo f ts fuel left right = some i →
      f (ts.getD i default) = Ordering.eq ∧ left ≤ i ∧ i < right := by
  intro fuel
  induction fuel with
  | zero => intro left right i h; simp [binarySearchGo] at h
  | succ fuel ih =>
    intro left right i h
    unfold binarySearchGo at h
    split at h
    · next hlr =>
      have hmidlt : left + (right - left) / 2 < right := by omega
      have hmidge : left ≤ left + (right - left) / 2 := by omega
      split at h
      · next heq =>
        have := ih _ _ _ h
        exact ⟨this.1, by omega, this.2.2⟩
      · next heq =>
        have := ih _ _ _ h
        exact ⟨this.1, this.2.1, by omega⟩
      · next heq =>
        cases h
        exact ⟨heq, hmidge, hmidlt⟩
    · cases h

theorem tokenCmp_eq_contains {charIndex : Nat} {t : Token}
    (h : tokenCmp charIndex t = Ordering.eq) :
    t.start ≤ charIndex ∧ charIndex < t.stop := by
  unfold tokenCmp at h
  split_ifs at h with hA hB
  · omega

/-- **C10** — confirmed.  `find_token_kind_at` is total: with a line
index at or beyond the overlay and with a character index contained in
no token of the addressed line, it returns `TokenKind::Text` instead of
failing. -/
theorem c10_find_token_kind_total (hb : List HLine) (lineIndex charIndex : Nat)
    (h : hb.length ≤ lineIndex ∨
      ∀ t ∈ (hb.getD lineIndex default).tokens,
        ¬(t.start ≤ charIndex ∧ charIndex < t.stop)) :
    findTokenKindAt hb lineIndex charIndex = TokenKind.text := by
  unfold findTokenKindAt
  by_cases hlen : hb.length ≤ lineIndex
  · rw [if_pos hlen]
  · rw [if_neg hlen]
    rcases h with h | h
    · exact absurd h hlen
    show (match binarySearchLoop (tokenCmp charIndex)
        (hb.getD lineIndex default).tokens 0
        (hb.getD lineIndex default).tokens.length with
      | some i => ((hb.getD lineIndex default).tokens.getD i default).kind
      | Option.none => TokenKind.text) = TokenKind.text
    cases hbs : binarySearchLoop (tokenCmp charIndex)
        (hb.getD lineIndex default).tokens 0
        (hb.getD lineIndex default).tokens.length with
    | none => rfl
    | some i =>
      exfalso
      unfold binarySearchLoop at hbs
      have hg := binarySearchGo_some (tokenCmp charIndex)
        (hb.getD lineIndex default).tokens _ 0 _ i hbs
      have hi : i < (hb.getD lineIndex default).tokens.length := hg.2.2
      have hg1 := hg.1
      rw [List.getD_eq_getElem _ _ hi] at hg1
      have hcont := tokenCmp_eq_contains hg1
      exact h _ (List.getElem_mem hi) hcont

/-- Witness for C10: a one-line overlay whose single token is `0..2`,
probed at column 5. -/
theorem c10_find_token_kind_total_witness :
    (∀ t ∈ (([⟨LineState.finished, [⟨TokenKind.comment, 0, 2⟩]⟩] :
        List HLine).getD 0 default).tokens,
      ¬(t.start ≤ 5 ∧ 5 < t.stop)) ∧
      findTokenKindAt [⟨LineState.finished, [⟨TokenKind.comment, 0, 2⟩]⟩] 0 5 =
        TokenKind.text :=
  ⟨by decide,
    c10_find_token_kind_total _ 0 5 (Or.inr (by decide))⟩

/-! ## C5: rule selection inside `parse_line` -/

theorem scanRules_keeps (slice : List Nat) :
    ∀ (rs : List (TokenKind × Pattern)) (i best maxLen : Nat),
      (∀ kp ∈ rs, ∀ st, kp.2.matchesInput slice ≠ MatchResult.pending st) →
      (∀ kp ∈ rs, ∀ l, kp.2.matchesInput slice = MatchResult.ok l → l ≤ maxLen) →
      scanRules rs slice i best maxLen = ScanOutcome.best best maxLen := by
  intro rs
  induction rs with
  | nil => intro i best maxLen _ _; rfl
  | cons kp rest ih =>
    intro i best maxLen hnp hle
    unfold scanRules
    cases hm : kp.2.matchesInput slice with
    | ok len =>
      have hlen : len ≤ maxLen := hle kp (by simp) len hm
      show (if maxLen < len then scanRules rest slice (i + 1) i len
        else scanRules rest slice (i + 1) best maxLen) =
          ScanOutcome.best best maxLen
      rw [if_neg (by omega)]
      exact ih (i + 1) best maxLen (fun q hq => hnp q (by simp [hq]))
        (fun q hq => hle q (by simp [hq]))
    | err =>
      exact ih (i + 1) best maxLen (fun q hq => hnp q (by simp [hq]))
        (fun q hq => hle q (by simp [hq]))
    | pending st => exact absurd hm (hnp kp (by simp) st)

theorem scanRules_first_max (slice : List Nat) :
    ∀ (rs : List (TokenKind × Pattern)) (t i best maxLen m : Nat),
      (∀ kp ∈ rs, ∀ st, kp.2.matchesInput slice ≠ MatchResult.pending st) →
      maxLen < m →
      t < rs.length →
      (rs.getD t (TokenKind.text, Pattern.never)).2.matchesInput slice =
        MatchResult.ok m →
      (∀ j, j < t →
        ∀ l, (rs.getD j (TokenKind.text, Pattern.never)).2.matchesInput slice =
          MatchResult.ok l → l < m) →
      (∀ kp ∈ rs, ∀ l, kp.2.matchesInput slice = MatchResult.ok l → l ≤ m) →
      scanRules rs slice i best maxLen = ScanOutcome.best (i + t) m := by
  intro rs
  induction rs with
  | nil => intro t i best maxLen m _ _ ht; exact absurd ht (by simp)
  | cons kp rest ih =>
    intro t i best maxLen m hnp hacc ht hok hfirst hle
    unfold scanRules
    cases hm : kp.2.matchesInput slice with
    | pending st => exact absurd hm (hnp kp (by simp) st)
    | err =>
      cases t with
      | zero => rw [List.getD_cons_zero] at hok; rw [hm] at hok; cases hok
      | succ t2 =>
        rw [List.getD_cons_succ] at hok
        have hres := ih t2 (i + 1) best maxLen m
          (fun q hq => hnp q (by simp [hq])) hacc
          (by simpa using ht) hok
          (fun j hj l hl => hfirst (j + 1) (by omega) l
            (by rwa [List.getD_cons_succ]))
          (fun q hq => hle q (by simp [hq]))
        have harith : i + 1 + t2 = i + (t2 + 1) := by omega
        rw [harith] at hres
        exact hres
    | ok len =>
      cases t with
      | zero =>
        rw [List.getD_cons_zero] at hok
        rw [hm] at hok
        cases hok
        show (if maxLen < m then scanRules rest slice (i + 1) i m
          else scanRules rest slice (i + 1) best maxLen) =
            ScanOutcome.best (i + 0) m
        rw [if_pos hacc]
        have hres := scanRules_keeps slice rest (i + 1) i m
          (fun q hq => hnp q (by simp [hq]))
          (fun q hq => hle q (by simp [hq]))
        rw [hres, Nat.add_zero]
      | succ t2 =>
        have hlt : len < m := by
          refine hfirst 0 (by omega) len ?_
          rw [List.getD_cons_zero]
          exact hm
        rw [List.getD_cons_succ] at hok
        show (if maxLen < len then scanRules rest slice (i + 1) i len
          else scanRules rest slice (i + 1) best maxLen) =
            ScanOutcome.best (i + (t2 + 1)) m
        by_cases hc : maxLen < len
        · rw [if_pos hc]
          have hres := ih t2 (i + 1) i len m
            (fun q hq => hnp q (by simp [hq])) hlt
            (by simpa using ht) hok
            (fun j hj l hl => hfirst (j + 1) (by omega) l
              (by rwa [List.getD_cons_succ]))
            (fun q hq => hle q (by simp [hq]))
          have harith : i + 1 + t2 = i + (t2 + 1) := by omega
          rw [harith] at hres
          exact hres
        · rw [if_neg hc]
          have hres := ih t2 (i + 1) best maxLen m
            (fun q hq => hnp q (by simp [hq])) hacc
            (by simpa using ht) hok
            (fun j hj l hl => hfirst (j + 1) (by omega) l
              (by rwa [List.getD_cons_succ]))
            (fun q hq => hle q (by simp [hq]))
          have harith : i + 1 + t2 = i + (t2 + 1) := by omega
          rw [harith] at hres
          exact hres

/-- **C5** — confirmed.  At a cursor position scanned with a `Finished`
carry, when no rule is pending on the slice and `m > 0` is the maximal
`Ok` length, attained first by rule `t` (every earlier rule's `Ok`
length is strictly smaller — so on ties the earliest rule in
registration order wins and a later equal-length rule never replaces
it), the token `parse_line`'s loop emits at that position carries rule
`t`'s kind. -/
theorem c5_first_longest_rule_wins (syn : Syntax) (line : List Nat)
    (lineIndex : Nat) (hlt : lineIndex < line.length) (t m : Nat)
    (hnp : ∀ kp ∈ syn.rules, ∀ st,
      kp.2.matchesInput (cursorSlice line lineIndex) ≠ MatchResult.pending st)
    (hm : 0 < m)
    (ht : t < syn.rules.length)
    (hok : (patternAt syn t).matchesInput (cursorSlice line lineIndex) =
      MatchResult.ok m)
    (hfirst : ∀ j, j < t →
      ∀ l, (patternAt syn j).matchesInput (cursorSlice line lineIndex) =
        MatchResult.ok l → l < m)
    (hle : ∀ kp ∈ syn.rules, ∀ l,
      kp.2.matchesInput (cursorSlice line lineIndex) = MatchResult.ok l →
        l ≤ m) :
    ∃ stop, (parseLoop syn line lineIndex).1.head? =
      some ⟨kindAt syn t, lineIndex, stop⟩ := by
  have hscan := scanRules_first_max (cursorSlice line lineIndex) syn.rules
    t 0 0 0 m hnp hm ht hok hfirst hle
  rw [Nat.zero_add] at hscan
  unfold cursorSlice at hscan
  unfold parseLoop parseLoopGo
  rw [if_pos hlt]
  simp only
  rw [hscan]
  simp only [Nat.pos_iff_ne_zero] at hm
  simp only [beq_iff_eq, if_neg hm]
  exact ⟨_, rfl⟩

/-- Witness for C5: two rules that both match any slice with length 2 —
a tie — on the line `"abc"`; the first rule's kind (`Keyword`) wins. -/
theorem c5_first_longest_rule_wins_witness :
    (0 < tieSyntax.rules.length ∧
      (patternAt tieSyntax 0).matchesInput (cursorSlice [97, 98, 99] 0) =
        MatchResult.ok 2) ∧
    ∃ stop, (parseLoop tieSyntax [97, 98, 99] 0).1.head? =
      some ⟨kindAt tieSyntax 0, 0, stop⟩ := by
  refine ⟨⟨by decide, rfl⟩, ?_⟩
  refine c5_first_longest_rule_wins tieSyntax [97, 98, 99] 0 (by decide) 0 2
    ?_ (by decide) (by decide) rfl ?_ ?_
  · intro kp hkp st
    simp only [tieSyntax, List.mem_cons, List.mem_singleton] at hkp
    rcases hkp with h | h | h
    · rw [h]; simp [okTwoPattern]
    · rw [h]; simp [okTwoPattern]
    · cases h
  · intro j hj l hl
    exact absurd hj (Nat.not_lt_zero j)
  · intro kp hkp l hl
    simp only [tieSyntax, List.mem_cons, List.mem_singleton] at hkp
    rcases hkp with h | h | h
    · rw [h] at hl; simp [okTwoPattern] at hl; omega
    · rw [h] at hl; simp [okTwoPattern] at hl; omega
    · cases h

/-! ## Event-codec round-trips and decode/delivery lemmas -/

theorem deserializeOptionHandle_branch1 (rest : List Nat) :
    deserializeOptionHandle (1 :: rest) =
      (deserializeU32 rest).bind (fun p => some (some p.1, p.2)) := rfl

theorem deserializeOptionHandle_roundtrip (h : Option Nat) (hh : HandleWF h)
    (t : List Nat) :
    deserializeOptionHandle (serializeOptionHandle h ++ t) = some (h, t) := by
  cases h with
  | none => rfl
  | some v =>
    have hv : v < 4294967296 := hh
    simp only [serializeOptionHandle, List.cons_append]
    rw [deserializeOptionHandle_branch1, toLE4_u32 hv]
    rfl

theorem deserializeStr_roundtrip (s : List Nat) (hs : s.length < 4294967296)
    (t : List Nat) :
    deserializeStr (serializeStr s ++ t) = some (s, t) := by
  unfold serializeStr deserializeStr
  rw [List.append_assoc, toLE4_u32 hs]
  simp only [Option.some_bind]
  rw [if_pos (by simp)]
  simp

theorem deserializeEvent_branch0 (rest : List Nat) :
    deserializeEvent (0 :: rest) =
      (deserializeOptionHandle rest).bind fun pt =>
        (deserializeKey pt.2).bind fun pk =>
          some (ClientEvent.key pt.1 pk.1, pk.2) := rfl

theorem deserializeEvent_branch1 (rest : List Nat) :
    deserializeEvent (1 :: rest) =
      (deserializeOptionHandle rest).bind fun pt =>
        (deserializeU16 pt.2).bind fun pw =>
          (deserializeU16 pw.2).bind fun ph =>
            some (ClientEvent.resize pt.1 pw.1 ph.1, ph.2) := rfl

theorem deserializeEvent_branch2 (rest : List Nat) :
    deserializeEvent (2 :: rest) =
      (deserializeOptionHandle rest).bind fun pt =>
        (deserializeStr pt.2).bind fun ps =>
          some (ClientEvent.command pt.1 ps.1, ps.2) := rfl

theorem deserializeEvent_serializeEvent (e : ClientEvent) (he : EventWF e)
    (t : List Nat) :
    deserializeEvent (serializeEvent e ++ t) = some (e, t) := by
  cases e with
  | key target k =>
    have h1 : HandleWF target := he.1
    have h2 : KeyWF k := he.2
    simp only [serializeEvent, List.cons_append, List.append_assoc]
    rw [deserializeEvent_branch0, deserializeOptionHandle_roundtrip target h1]
    simp only [Option.some_bind]
    rw [deserializeKey_serializeKey k h2]
    rfl
  | resize target w h =>
    have h1 : HandleWF target := he.1
    have h2 : w < 65536 := he.2.1
    have h3 : h < 65536 := he.2.2
    simp only [serializeEvent, List.cons_append, List.append_assoc]
    rw [deserializeEvent_branch1, deserializeOptionHandle_roundtrip target h1]
    simp only [Option.some_bind]
    rw [toLE2_u16 h2, Option.some_bind, toLE2_u16 h3]
    rfl
  | command target s =>
    have h1 : HandleWF target := he.1
    have h2 : s.length < 4294967296 := he.2
    simp only [serializeEvent, List.cons_append, List.append_assoc]
    rw [deserializeEvent_branch2, deserializeOptionHandle_roundtrip target h1]
    simp only [Option.some_bind]
    rw [deserializeStr_roundtrip s h2]
    rfl

theorem serializeEvent_ne_nil (e : ClientEvent) : serializeEvent e ≠ [] := by
  cases e <;> simp [serializeEvent]

theorem serializeEvents_append (es1 es2 : List ClientEvent) :
    serializeEvents (es1 ++ es2) = serializeEvents es1 ++ serializeEvents es2 := by
  induction es1 with
  | nil => rfl
  | cons e es ih => simp [serializeEvents, ih]

theorem deserializeNext_serialized (e : ClientEvent) (he : EventWF e)
    (t : List Nat) :
    deserializeNext (serializeEvent e ++ t) =
      DeserializeNextResult.someEvent e t := by
  unfold deserializeNext
  cases hse : serializeEvent e with
  | nil => exact absurd hse (serializeEvent_ne_nil e)
  | cons b rest =>
    simp only [List.cons_append]
    have hrt := deserializeEvent_serializeEvent e he t
    rw [hse] at hrt
    simp only [List.cons_append] at hrt
    rw [hrt]

theorem decodeAllGo_serialized (es : List ClientEvent) :
    ∀ fuel, (∀ e ∈ es, EventWF e) →
      (serializeEvents es).length < fuel →
      decodeAllGo fuel (serializeEvents es) = es := by
  induction es with
  | nil =>
    intro fuel _ hf
    cases fuel with
    | zero => omega
    | succ f => rfl
  | cons e es ih =>
    intro fuel hwf hf
    cases fuel with
    | zero => omega
    | succ f =>
      unfold decodeAllGo
      show (match deserializeNext (serializeEvent e ++ serializeEvents es) with
        | DeserializeNextResult.someEvent e2 r => e2 :: decodeAllGo f r
        | DeserializeNextResult.noneLeft => []
        | DeserializeNextResult.errored => []) = e :: es
      rw [deserializeNext_serialized e (hwf e (by simp))]
      have hlen : (serializeEvents es).length < f := by
        have h1 : 1 ≤ (serializeEvent e).length := by
          cases hse : serializeEvent e with
          | nil => exact absurd hse (serializeEvent_ne_nil e)
          | cons b rest => simp
        have h2 : (serializeEvents (e :: es)).length =
            (serializeEvent e).length + (serializeEvents es).length := by
          simp [serializeEvents]
        omega
      show e :: decodeAllGo f (serializeEvents es) = e :: es
      rw [ih f (fun q hq => hwf q (by simp [hq])) hlen]

theorem decodeAll_serialized (es : List ClientEvent)
    (hwf : ∀ e ∈ es, EventWF e) :
    decodeAll (serializeEvents es) = es :=
  decodeAllGo_serialized es _ hwf (by omega)

theorem deliverLoopGo_serialized (f : ClientEvent → EditorLoop)
    (es : List ClientEvent) :
    ∀ fuel last, (∀ e ∈ es, EventWF e) →
      (∀ e ∈ es, f e ≠ EditorLoop.quit) →
      (serializeEvents es).length < fuel →
      (deliverLoopGo f fuel (serializeEvents es) last).1 = es := by
  induction es with
  | nil =>
    intro fuel last _ _ hf
    cases fuel with
    | zero => omega
    | succ fl => rfl
  | cons e es ih =>
    intro fuel last hwf hnq hf
    cases fuel with
    | zero => omega
    | succ fl =>
      unfold deliverLoopGo
      show (match deserializeNext (serializeEvent e ++ serializeEvents es) with
        | DeserializeNextResult.someEvent e2 r =>
          if f e2 = EditorLoop.quit then ([e2], some (f e2))
          else ((e2 :: (deliverLoopGo f fl r (f e2)).1,
            (deliverLoopGo f fl r (f e2)).2) : List ClientEvent × Option EditorLoop)
        | DeserializeNextResult.noneLeft => ([], some last)
        | DeserializeNextResult.errored => ([], Option.none)).1 = e :: es
      rw [deserializeNext_serialized e (hwf e (by simp))]
      simp only
      rw [if_neg (hnq e (by simp))]
      have hlen : (serializeEvents es).length < fl := by
        have h1 : 1 ≤ (serializeEvent e).length := by
          cases hse : serializeEvent e with
          | nil => exact absurd hse (serializeEvent_ne_nil e)
          | cons b rest => simp
        have h2 : (serializeEvents (e :: es)).length =
            (serializeEvent e).length + (serializeEvents es).length := by
          simp [serializeEvents]
        omega
      rw [ih fl (f e) (fun q hq => hwf q (by simp [hq]))
        (fun q hq => hnq q (by simp [hq])) hlen]

theorem decodeAllGo_fuel :
    ∀ (fuel1 : Nat) (bs : List Nat) (fuel2 : Nat),
      bs.length < fuel1 → bs.length < fuel2 →
      decodeAllGo fuel1 bs = decodeAllGo fuel2 bs := by
  intro fuel1
  induction fuel1 with
  | zero => intro bs fuel2 h1 h2; omega
  | succ f1 ih =>
    intro bs fuel2 h1 h2
    cases fuel2 with
    | zero => omega
    | succ f2 =>
      unfold decodeAllGo
      cases hnext : deserializeNext bs with
      | someEvent e r =>
        have hr := deserializeNext_len hnext
        show e :: decodeAllGo f1 r = e :: decodeAllGo f2 r
        rw [ih r f2 (by omega) (by omega)]
      | noneLeft => rfl
      | errored => rfl

theorem deliverLoopGo_stops (f : ClientEvent → EditorLoop)
    (es1 : List ClientEvent) :
    ∀ (bs : List Nat) (fuel : Nat) (last : EditorLoop) (e : ClientEvent)
      (es2 : List ClientEvent),
      bs.length < fuel →
      decodeAll bs = es1 ++ e :: es2 →
      (∀ x ∈ es1, f x ≠ EditorLoop.quit) →
      f e = EditorLoop.quit →
      (deliverLoopGo f fuel bs last).1 = es1 ++ [e] := by
  induction es1 with
  | nil =>
    intro bs fuel last e es2 hf hdec hn hq
    unfold decodeAll decodeAllGo at hdec
    cases fuel with
    | zero => omega
    | succ fl =>
      unfold deliverLoopGo
      cases hnext : deserializeNext bs with
      | someEvent e2 r =>
        rw [hnext] at hdec
        simp only [List.nil_append, List.cons.injEq] at hdec
        rw [hdec.1] at hnext ⊢
        simp only
        rw [if_pos hq]
        rfl
      | noneLeft => rw [hnext] at hdec; simp at hdec
      | errored => rw [hnext] at hdec; simp at hdec
  | cons x rest ih2 =>
    intro bs fuel last e es2 hf hdec hn hq
    unfold decodeAll decodeAllGo at hdec
    cases fuel with
    | zero => omega
    | succ fl =>
      unfold deliverLoopGo
      cases hnext : deserializeNext bs with
      | someEvent e2 r =>
        rw [hnext] at hdec
        simp only [List.cons_append, List.cons.injEq] at hdec
        rw [hdec.1] at hnext ⊢
        simp only
        rw [if_neg (hn x (by simp))]
        have hr := deserializeNext_len hnext
        have hdecr : decodeAll r = rest ++ e :: es2 := by
          unfold decodeAll
          rw [decodeAllGo_fuel (r.length + 1) r bs.length (by omega) (by omega)]
          exact hdec.2
        have := ih2 r fl (f x) e es2 (by omega) hdecr
          (fun q hq2 => hn q (by simp [hq2])) hq
        rw [this]
        simp
      | noneLeft => rw [hnext] at hdec; simp at hdec
      | errored => rw [hnext] at hdec; simp at hdec

/-! ## `receive_keys` on a reset buffer -/

theorem writeAt_length {buf data : List Nat} {pos : Nat}
    (h : pos + data.length ≤ buf.length) :
    (writeAt buf pos data).length = buf.length := by
  unfold writeAt
  simp only [List.length_append, List.length_take, List.length_drop]
  omega

theorem writeAt_zero (buf data : List Nat) :
    writeAt buf 0 data = data ++ buf.drop data.length := by
  simp [writeAt]

theorem readFrom_reset {rb : ReadBuf} {incoming : List Nat}
    (h0 : rb.len = 0) (hp : rb.position = 0)
    (hlt : incoming.length < rb.buf.length) :
    readFrom rb incoming = ⟨writeAt rb.buf 0 incoming, incoming.length, 0⟩ := by
  unfold readFrom readFromLoop
  rw [h0]
  have ht : Nat.min (rb.buf.length - 0) incoming.length = incoming.length :=
    Nat.min_eq_right (by omega)
  rw [ht]
  simp only [List.take_length, Nat.zero_add]
  rw [if_pos (by rw [writeAt_length (by omega)]; omega)]
  cases rb with
  | mk b l p =>
    simp only at h0 hp ⊢
    rw [hp]

theorem readGuardBytes_write (buf incoming : List Nat)
    (hle : incoming.length ≤ buf.length) :
    readGuardBytes ⟨writeAt buf 0 incoming, incoming.length, 0⟩ = incoming := by
  unfold readGuardBytes
  simp only [List.drop_zero, Nat.sub_zero]
  rw [writeAt_zero]
  exact List.take_left incoming (buf.drop incoming.length)

theorem receiveKeys_step (st : ConnectionWithClientCollection) (handle : Nat)
    (incoming : List Nat) (f : ClientEvent → EditorLoop)
    (conn : ConnectionWithClient)
    (hconn : st.connections.getD handle Option.none = some conn)
    (h0 : st.readBuf.len = 0) (hp : st.readBuf.position = 0)
    (hlt : incoming.length < st.readBuf.buf.length) :
    receiveKeys st handle incoming f =
      ({ st with readBuf := ⟨writeAt st.readBuf.buf 0 incoming, 0, 0⟩ },
       (deliverLoop f incoming EditorLoop.quit).1,
       (deliverLoop f incoming EditorLoop.quit).2) := by
  unfold receiveKeys
  rw [hconn]
  simp only
  rw [readFrom_reset h0 hp hlt,
    readGuardBytes_write st.readBuf.buf incoming (by omega)]
  rfl

/-! ## C7: a `Quit` from the callback stops delivery -/

/-- **C7** — confirmed.  Within one `receive_keys` call (entered with
the guard-reset buffer every call leaves behind), once the callback
returns `Quit` on an event, no later event decoded from the buffer is
delivered: delivery is exactly the prefix up to and including the first
quitting event. -/
theorem c7_quit_stops_delivery (st : ConnectionWithClientCollection)
    (handle : Nat) (incoming : List Nat) (f : ClientEvent → EditorLoop)
    (conn : ConnectionWithClient)
    (hconn : st.connections.getD handle Option.none = some conn)
    (h0 : st.readBuf.len = 0) (hp : st.readBuf.position = 0)
    (hlt : incoming.length < st.readBuf.buf.length)
    (es1 : List ClientEvent) (e : ClientEvent) (es2 : List ClientEvent)
    (hdec : decodeAll incoming = es1 ++ e :: es2)
    (hn : ∀ x ∈ es1, f x ≠ EditorLoop.quit)
    (hq : f e = EditorLoop.quit) :
    (receiveKeys st handle incoming f).2.1 = es1 ++ [e] := by
  rw [receiveKeys_step st handle incoming f conn hconn h0 hp hlt]
  exact deliverLoopGo_stops f es1 incoming (incoming.length + 1)
    EditorLoop.quit e es2 (by omega) hdec hn hq

/-- Witness for C7: a quitting `Command(None, "quit")` followed by a
`Key(None, Esc)` on the same connection — the Esc is not delivered. -/
theorem c7_quit_stops_delivery_witness :
    decodeAll (serializeEvents [quitCommandEvent, escKeyEvent]) =
      [] ++ quitCommandEvent :: [escKeyEvent] ∧
    quitOnCommand quitCommandEvent = EditorLoop.quit ∧
    (receiveKeys oneConnState 0
        (serializeEvents [quitCommandEvent, escKeyEvent]) quitOnCommand).2.1 =
      [] ++ [quitCommandEvent] := by
  refine ⟨by decide, by decide, ?_⟩
  refine c7_quit_stops_delivery oneConnState 0 _ quitOnCommand ⟨0⟩ rfl rfl rfl
    ?_ [] quitCommandEvent [escKeyEvent] (by decide) (by simp) (by decide)
  have hb : oneConnState.readBuf.buf.length = 2048 := by
    show (List.replicate 2048 0).length = 2048
    exact List.length_replicate 2048 0
  rw [hb]
  decide

/-! ## C3: splitting a serialized stream across two receive calls -/

/-- **C3** — counterexample.  The 3-byte encoding of
`Key(None, Esc)` split as `[0,0]` then `[17]` across two successive
`receive_keys` calls delivers nothing (the guard drop discards the
partial tail, and the second half alone is malformed), while the
undivided stream decodes to the one event. -/
theorem c3_counterexample :
    (receiveKeys oneConnState 0 [0, 0] cbCont).2.1 ++
        (receiveKeys (receiveKeys oneConnState 0 [0, 0] cbCont).1 0 [17]
          cbCont).2.1 ≠
      decodeAll ([0, 0] ++ [17]) := by
  have hb : oneConnState.readBuf.buf.length = 2048 := by
    show (List.replicate 2048 0).length = 2048
    exact List.length_replicate 2048 0
  have e1 := receiveKeys_step oneConnState 0 [0, 0] cbCont ⟨0⟩ rfl rfl rfl
    (by rw [hb]; decide)
  rw [e1]
  dsimp only
  have hw : (writeAt oneConnState.readBuf.buf 0 [0, 0]).length = 2048 := by
    rw [writeAt_length (by rw [hb]; decide)]
    exact hb
  have e2 := receiveKeys_step
    { oneConnState with
      readBuf := ⟨writeAt oneConnState.readBuf.buf 0 [0, 0], 0, 0⟩ }
    0 [17] cbCont ⟨0⟩ rfl rfl rfl (by rw [hw]; decide)
  rw [e2]
  dsimp only
  decide

/-- **C3** — corrected.  When the split falls on an event boundary —
each half is itself a serialized event batch — two successive
`receive_keys` calls deliver exactly the undivided decoding.  (A split
inside an event loses the partial tail when the read guard drops, as
the counterexample shows, so the claim holds only for boundary splits.) -/
theorem c3_boundary_split_resilience (st : ConnectionWithClientCollection)
    (handle : Nat) (f : ClientEvent → EditorLoop)
    (conn : ConnectionWithClient) (es1 es2 : List ClientEvent)
    (hconn : st.connections.getD handle Option.none = some conn)
    (h0 : st.readBuf.len = 0) (hp : st.readBuf.position = 0)
    (hlen1 : (serializeEvents es1).length < st.readBuf.buf.length)
    (hlen2 : (serializeEvents es2).length < st.readBuf.buf.length)
    (hwf1 : ∀ e ∈ es1, EventWF e) (hwf2 : ∀ e ∈ es2, EventWF e)
    (hf1 : ∀ e ∈ es1, f e ≠ EditorLoop.quit)
    (hf2 : ∀ e ∈ es2, f e ≠ EditorLoop.quit) :
    (receiveKeys st handle (serializeEvents es1) f).2.1 ++
        (receiveKeys (receiveKeys st handle (serializeEvents es1) f).1 handle
          (serializeEvents es2) f).2.1 =
      decodeAll (serializeEvents es1 ++ serializeEvents es2) ∧
    decodeAll (serializeEvents es1 ++ serializeEvents es2) = es1 ++ es2 := by
  have hdec : decodeAll (serializeEvents es1 ++ serializeEvents es2) =
      es1 ++ es2 := by
    rw [← serializeEvents_append]
    exact decodeAll_serialized (es1 ++ es2)
      (fun e he => (List.mem_append.mp he).elim (hwf1 e) (hwf2 e))
  have e1 := receiveKeys_step st handle (serializeEvents es1) f conn
    hconn h0 hp hlen1
  rw [e1]
  dsimp only
  have hlen2b : (serializeEvents es2).length <
      (writeAt st.readBuf.buf 0 (serializeEvents es1)).length := by
    rw [writeAt_length (by omega)]
    exact hlen2
  have e2 := receiveKeys_step
    { st with readBuf := ⟨writeAt st.readBuf.buf 0 (serializeEvents es1), 0, 0⟩ }
    handle (serializeEvents es2) f conn hconn rfl rfl hlen2b
  rw [e2]
  dsimp only
  refine ⟨?_, hdec⟩
  rw [hdec]
  unfold deliverLoop
  rw [deliverLoopGo_serialized f es1 _ EditorLoop.quit hwf1 hf1 (by omega),
    deliverLoopGo_serialized f es2 _ EditorLoop.quit hwf2 hf2 (by omega)]

/-- Witness for C3's amended statement: `Key(None, Esc)` in the first
half, `Resize(Some 3, 80, 24)` in the second. -/
theorem c3_boundary_split_resilience_witness :
    (receiveKeys oneConnState 0 (serializeEvents [escKeyEvent]) cbCont).2.1 ++
        (receiveKeys
          (receiveKeys oneConnState 0 (serializeEvents [escKeyEvent]) cbCont).1
          0 (serializeEvents [resizeEvent]) cbCont).2.1 =
      decodeAll (serializeEvents [escKeyEvent] ++
        serializeEvents [resizeEvent]) ∧
    decodeAll (serializeEvents [escKeyEvent] ++ serializeEvents [resizeEvent]) =
      [escKeyEvent] ++ [resizeEvent] := by
  have hb : oneConnState.readBuf.buf.length = 2048 := by
    show (List.replicate 2048 0).length = 2048
    exact List.length_replicate 2048 0
  refine c3_boundary_split_resilience oneConnState 0 cbCont ⟨0⟩
    [escKeyEvent] [resizeEvent] rfl rfl rfl
    (by rw [hb]; decide) (by rw [hb]; decide) ?_ ?_ (by decide) (by decide)
  · intro e he
    simp only [List.mem_singleton] at he
    rw [he]
    exact ⟨trivial, trivial⟩
  · intro e he
    simp only [List.mem_singleton] at he
    rw [he]
    exact ⟨by show (3 : Nat) < 4294967296; decide,
      by show (80 : Nat) < 65536; decide, by show (24 : Nat) < 65536; decide⟩

/-! ## C8: the server's read buffer is shared, not per-connection -/

/-- **C8** — counterexample.  `ConnectionWithClient` holds a stream
only and the collection holds a single `ReadBuf`: after serving
connection 0 the bytes `[7, 8, 9]` read on its behalf remain in that
one buffer, and serving connection 1 writes into the very same cells
(leaving `[5, 8, 9]`) — so bytes read on behalf of one connection do
accumulate in the buffer used for another, contradicting the claimed
per-connection ownership. -/
theorem c8_counterexample :
    ((receiveKeys twoConnState 0 [7, 8, 9] cbCont).1.readBuf.buf.take 3 =
      [7, 8, 9]) ∧
    ((receiveKeys (receiveKeys twoConnState 0 [7, 8, 9] cbCont).1 1 [5]
        cbCont).1.readBuf.buf.take 3 = [5, 8, 9]) := by
  have hb : twoConnState.readBuf.buf.length = 2048 := by
    show (List.replicate 2048 0).length = 2048
    exact List.length_replicate 2048 0
  have e1 := receiveKeys_step twoConnState 0 [7, 8, 9] cbCont ⟨0⟩ rfl rfl rfl
    (by rw [hb]; decide)
  rw [e1]
  dsimp only
  have hw : (writeAt twoConnState.readBuf.buf 0 [7, 8, 9]).length = 2048 := by
    rw [writeAt_length (by rw [hb]; decide)]
    exact hb
  have e2 := receiveKeys_step
    { twoConnState with
      readBuf := ⟨writeAt twoConnState.readBuf.buf 0 [7, 8, 9], 0, 0⟩ }
    1 [5] cbCont ⟨1⟩ rfl rfl rfl (by rw [hw]; decide)
  rw [e2]
  dsimp only
  constructor
  · rw [writeAt_zero]
    exact List.take_left [7, 8, 9] _
  · rw [writeAt_zero, writeAt_zero]
    show ([5] ++ (([7, 8, 9] : List Nat) ++
      twoConnState.readBuf.buf.drop 3).drop 1).take 3 = [5, 8, 9]
    rw [List.drop_append_of_le_length (by decide)]
    show (([5] ++ ([8, 9] ++ twoConnState.readBuf.buf.drop 3))).take 3 = [5, 8, 9]
    rw [← List.append_assoc]
    exact List.take_left [5, 8, 9] _

/-- **C8** — corrected.  The collection's one shared buffer is reset by
the guard after every call, so each `receive_keys` call's deliveries
are a function of that call's own incoming bytes alone — no bytes are
ever *delivered* across connections — and the reset invariant is
re-established for the next connection served. -/
theorem c8_shared_buffer_isolation (st : ConnectionWithClientCollection)
    (handle : Nat) (incoming : List Nat) (f : ClientEvent → EditorLoop)
    (conn : ConnectionWithClient)
    (hconn : st.connections.getD handle Option.none = some conn)
    (h0 : st.readBuf.len = 0) (hp : st.readBuf.position = 0)
    (hlt : incoming.length < st.readBuf.buf.length) :
    (receiveKeys st handle incoming f).2.1 =
      (deliverLoop f incoming EditorLoop.quit).1 ∧
    (receiveKeys st handle incoming f).1.readBuf.len = 0 ∧
    (receiveKeys st handle incoming f).1.readBuf.position = 0 ∧
    (receiveKeys st handle incoming f).1.connections = st.connections := by
  rw [receiveKeys_step st handle incoming f conn hconn h0 hp hlt]
  exact ⟨rfl, rfl, rfl, rfl⟩

/-- Witness for C8's amended statement. -/
theorem c8_shared_buffer_isolation_witness :
    (receiveKeys twoConnState 1 [17] cbCont).2.1 =
      (deliverLoop cbCont [17] EditorLoop.quit).1 ∧
    (receiveKeys twoConnState 1 [17] cbCont).1.readBuf.len = 0 ∧
    (receiveKeys twoConnState 1 [17] cbCont).1.readBuf.position = 0 ∧
    (receiveKeys twoConnState 1 [17] cbCont).1.connections =
      twoConnState.connections := by
  have hb : twoConnState.readBuf.buf.length = 2048 := by
    show (List.replicate 2048 0).length = 2048
    exact List.length_replicate 2048 0
  exact c8_shared_buffer_isolation twoConnState 1 [17] cbCont ⟨1⟩ rfl rfl rfl
    (by rw [hb]; decide)

/-! ## C1/C2: incremental highlighting

Lemmas about a syntax with no multi-line continuation (`NoPending`):
every parse ends `Finished`, each line's highlighting is independent of
the rest, and the repair machinery leaves an already-correct overlay
untouched. -/

theorem scanRules_no_pending (slice : List Nat) :
    ∀ (rs : List (TokenKind × Pattern)),
      (∀ kp ∈ rs, ∀ st, kp.2.matchesInput slice ≠ MatchResult.pending st) →
      ∀ i best maxLen, ∃ b m,
        scanRules rs slice i best maxLen = ScanOutcome.best b m := by
  intro rs
  induction rs with
  | nil => intro _ i best maxLen; exact ⟨best, maxLen, rfl⟩
  | cons kp rest ih =>
    intro hnp i best maxLen
    unfold scanRules
    cases hm : kp.2.matchesInput slice with
    | ok len =>
      show ∃ b m, (if maxLen < len then scanRules rest slice (i + 1) i len
        else scanRules rest slice (i + 1) best maxLen) = ScanOutcome.best b m
      split
      · exact ih (fun q hq => hnp q (by simp [hq])) (i + 1) i len
      · exact ih (fun q hq => hnp q (by simp [hq])) (i + 1) best maxLen
    | err => exact ih (fun q hq => hnp q (by simp [hq])) (i + 1) best maxLen
    | pending st => exact absurd hm (hnp kp (by simp) st)

theorem parseLoopGo_finished (syn : Syntax) (hnp : NoPending syn)
    (line : List Nat) :
    ∀ fuel lineIndex, (parseLoopGo syn line fuel lineIndex).2 =
      LineState.finished := by
  intro fuel
  induction fuel with
  | zero => intro lineIndex; rfl
  | succ fuel ih =>
    intro lineIndex
    unfold parseLoopGo
    split
    · obtain ⟨b, m, hs⟩ := scanRules_no_pending
        ((line.drop lineIndex).drop
          ((line.drop lineIndex).takeWhile isAsciiWhitespace).length)
        syn.rules (fun kp hk st => (hnp kp hk).1 _ st) 0 0 0
      simp only
      rw [hs]
      exact ih _
    · rfl

theorem parseLine_finished (syn : Syntax) (hnp : NoPending syn)
    (line : List Nat) (carry : LineState) :
    (parseLine syn line carry).2 = LineState.finished := by
  unfold parseLine
  split
  · rfl
  · cases carry with
    | finished => exact parseLoopGo_finished syn hnp line _ 0
    | unfinished pi st =>
      dsimp only
      by_cases hi : pi < syn.rules.length
      · cases hm : (patternAt syn pi).matchesWithState line st with
        | ok len =>
          dsimp only
          show (parseLoop syn line len).2 = LineState.finished
          exact parseLoopGo_finished syn hnp line _ len
        | err =>
          show (parseLoop syn line 0).2 = LineState.finished
          exact parseLoopGo_finished syn hnp line _ 0
        | pending st2 =>
          exfalso
          have hmem : syn.rules.getD pi (TokenKind.text, Pattern.never) ∈
              syn.rules := by
            rw [List.getD_eq_getElem _ _ hi]
            exact List.getElem_mem hi
          exact (hnp _ hmem).2 line st st2 hm
      · have hd : patternAt syn pi = Pattern.never := by
          unfold patternAt
          rw [List.getD_eq_default _ _ (by omega)]
        rw [hd]
        show (parseLoop syn line 0).2 = LineState.finished
        exact parseLoopGo_finished syn hnp line _ 0

theorem highlightLinesFrom_map (syn : Syntax) (hnp : NoPending syn) :
    ∀ buffer : List (List Nat),
      highlightLinesFrom syn LineState.finished buffer =
        highlightMap syn buffer := by
  intro buffer
  induction buffer with
  | nil => rfl
  | cons b bs ih =>
    unfold highlightLinesFrom
    simp only
    rw [parseLine_finished syn hnp b LineState.finished, ih]
    show _ :: highlightMap syn bs = lineHighlight syn b :: highlightMap syn bs
    congr 1
    unfold lineHighlight
    rw [parseLine_finished syn hnp b LineState.finished]

theorem highlighAll_map (syn : Syntax) (hnp : NoPending syn)
    (buffer : List (List Nat)) :
    highlighAll syn buffer = highlightMap syn buffer :=
  highlightLinesFrom_map syn hnp buffer

theorem highlightMap_getD_state (syn : Syntax) (hnp : NoPending syn)
    (buffer : List (List Nat)) (i : Nat) :
    ((highlightMap syn buffer).getD i default).state = LineState.finished := by
  by_cases hi : i < (highlightMap syn buffer).length
  · rw [List.getD_eq_getElem _ _ hi]
    have hi2 : i < buffer.length := by
      simpa [highlightMap] using hi
    show ((buffer.map (lineHighlight syn))[i]).state = LineState.finished
    rw [List.getElem_map]
    exact parseLine_finished syn hnp _ _
  · rw [List.getD_eq_default _ _ (by omega)]
    rfl

theorem highlightMap_state_mem (syn : Syntax) (hnp : NoPending syn)
    (buffer : List (List Nat)) :
    ∀ h ∈ highlightMap syn buffer, h.state = LineState.finished := by
  intro h hm
  obtain ⟨l, _, rfl⟩ := List.mem_map.mp hm
  exact parseLine_finished syn hnp _ _

theorem parseSpan_map (syn : Syntax) (hnp : NoPending syn) :
    ∀ (n : Nat) (bl : List (List Nat)) (hl : List HLine),
      parseSpan syn bl hl LineState.finished n =
        ((bl.take (Nat.min n (Nat.min bl.length hl.length))).map
            (lineHighlight syn) ++
          hl.drop (Nat.min n (Nat.min bl.length hl.length)),
         LineState.finished) := by
  intro n
  induction n with
  | zero => intro bl hl; simp [parseSpan]
  | succ n ih =>
    intro bl hl
    cases bl with
    | nil => simp [parseSpan]
    | cons b bs =>
      cases hl with
      | nil => simp [parseSpan]
      | cons h hs =>
        unfold parseSpan
        simp only
        rw [parseLine_finished syn hnp b LineState.finished, ih bs hs]
        have h1 : Nat.min (bs.length + 1) (hs.length + 1) =
            Nat.min bs.length hs.length + 1 := Nat.succ_min_succ _ _
        have hhd : (⟨LineState.finished,
            (parseLine syn b LineState.finished).1⟩ : HLine) =
              lineHighlight syn b := by
          unfold lineHighlight
          rw [parseLine_finished syn hnp b LineState.finished]
        simp only [List.length_cons, h1, Nat.succ_min_succ,
          List.take_succ_cons, List.map_cons, List.drop_succ_cons,
          List.cons_append, hhd]

theorem fixHighlightLoop_skip (syn : Syntax) (bl : List (List Nat))
    (hl : List HLine) (hst : ∀ h ∈ hl, h.state = LineState.finished) :
    fixHighlightLoop syn bl hl LineState.finished = hl := by
  cases hl with
  | nil => cases bl <;> rfl
  | cons h hs =>
    cases bl with
    | nil => rfl
    | cons b bs =>
      unfold fixHighlightLoop
      rw [if_pos ⟨rfl, hst h (by simp)⟩]

theorem fixHighlightFrom_skip (syn : Syntax) (buffer : List (List Nat))
    (i : Nat) (hb : List HLine)
    (hst : ∀ h ∈ hb, h.state = LineState.finished) :
    fixHighlightFrom syn buffer LineState.finished i hb = hb := by
  unfold fixHighlightFrom
  split
  · rfl
  · rw [fixHighlightLoop_skip syn _ _
      (fun h hm => hst h (List.mem_of_mem_drop hm))]
    exact List.take_append_drop i hb

theorem highlightMap_length (syn : Syntax) (buffer : List (List Nat)) :
    (highlightMap syn buffer).length = buffer.length := by
  simp [highlightMap]

theorem onDelete_map (syn : Syntax) (hnp : NoPending syn)
    (b0 b1 : List (List Nat)) (r : BufferRange)
    (hsh : DeleteShape b0 b1 r) :
    onDelete syn b1 r (highlightMap syn b0) = highlightMap syn b1 := by
  obtain ⟨hab, hb0, ha1, hlen, hpre, hsuf⟩ := hsh
  unfold onDelete
  dsimp only
  set A := r.fromPos.lineIndex with hAdef
  set B := r.toPos.lineIndex with hBdef
  have hcarry : previousLineKindAt (highlightMap syn b0) A =
      LineState.finished := by
    cases A with
    | zero => rfl
    | succ i => exact highlightMap_getD_state syn hnp b0 i
  rw [hcarry, parseLine_finished syn hnp (b1.getD A []) LineState.finished]
  have hhd : (⟨LineState.finished,
      (parseLine syn (b1.getD A []) LineState.finished).1⟩ : HLine) =
        lineHighlight syn (b1.getD A []) := by
    unfold lineHighlight
    rw [parseLine_finished syn hnp (b1.getD A []) LineState.finished]
  rw [hhd]
  have hb2map : (highlightMap syn b0).take A ++ (highlightMap syn b0).drop B =
      highlightMap syn (b0.take A ++ b0.drop B) := by
    simp [highlightMap, List.map_take, List.map_drop]
  rw [hb2map]
  have htakeA : (b0.take A).length = A := by
    rw [List.length_take]
    omega
  have hLlen : (b0.take A ++ b0.drop B).length = b1.length := by
    simp only [List.length_append, List.length_take, List.length_drop]
    omega
  have hAlt : A < (highlightMap syn (b0.take A ++ b0.drop B)).length := by
    rw [highlightMap_length, hLlen]
    exact ha1
  rw [List.set_eq_take_cons_drop _ hAlt]
  have ht1 : (highlightMap syn (b0.take A ++ b0.drop B)).take A =
      highlightMap syn (b1.take A) := by
    show (List.map (lineHighlight syn) (b0.take A ++ b0.drop B)).take A =
      List.map (lineHighlight syn) (b1.take A)
    rw [← List.map_take, List.take_append_of_le_length htakeA.ge,
      List.take_take, Nat.min_self, hpre]
  have ht2 : (highlightMap syn (b0.take A ++ b0.drop B)).drop (A + 1) =
      highlightMap syn (b1.drop (A + 1)) := by
    show (List.map (lineHighlight syn) (b0.take A ++ b0.drop B)).drop (A + 1) =
      List.map (lineHighlight syn) (b1.drop (A + 1))
    rw [← List.map_drop]
    congr 1
    have hidx : A + 1 = (b0.take A).length + 1 := by rw [htakeA]
    nth_rewrite 1 [hidx]
    rw [List.drop_append, List.drop_drop]
    exact hsuf.symm
  have ht3 : lineHighlight syn (b1.getD A []) = lineHighlight syn b1[A] := by
    rw [List.getD_eq_getElem _ _ ha1]
  rw [ht1, ht2, ht3]
  have ht4 : highlightMap syn (b1.take A) ++
      lineHighlight syn b1[A] :: highlightMap syn (b1.drop (A + 1)) =
        highlightMap syn b1 := by
    show List.map (lineHighlight syn) (b1.take A) ++
      lineHighlight syn b1[A] :: List.map (lineHighlight syn) (b1.drop (A + 1)) =
        List.map (lineHighlight syn) b1
    rw [← List.map_cons, ← List.map_append, List.getElem_cons_drop,
      List.take_append_drop]
  rw [ht4]
  exact fixHighlightFrom_skip syn b1 (B + 1) _
    (highlightMap_state_mem syn hnp b1)

theorem onInsert_map (syn : Syntax) (hnp : NoPending syn)
    (b0 b1 : List (List Nat)) (r : BufferRange)
    (hsh : InsertShape b0 b1 r) :
    onInsert syn b1 r (highlightMap syn b0) = highlightMap syn b1 := by
  obtain ⟨hab, ha0, hb1, hlen, hpre, hsuf⟩ := hsh
  unfold onInsert
  dsimp only
  set A := r.fromPos.lineIndex with hAdef
  set B := r.toPos.lineIndex with hBdef
  have hcarry : previousLineKindAt (highlightMap syn b0) A =
      LineState.finished := by
    cases A with
    | zero => rfl
    | succ i => exact highlightMap_getD_state syn hnp b0 i
  rw [hcarry]
  have hm0 : (highlightMap syn b0).length = b0.length :=
    highlightMap_length syn b0
  -- the spliced overlay
  set hb2 := (highlightMap syn b0).take (A + 1) ++
    List.replicate (B - A) default ++ (highlightMap syn b0).drop (A + 1)
    with hhb2
  have hb2len : hb2.length = b1.length := by
    rw [hhb2]
    simp only [List.length_append, List.length_take, List.length_replicate,
      List.length_drop, hm0]
    omega
  rw [parseSpan_map syn hnp (B - A + 1) (b1.drop A) (hb2.drop A)]
  have hk : Nat.min (B - A + 1)
      (Nat.min (b1.drop A).length (hb2.drop A).length) = B - A + 1 := by
    rw [List.length_drop, List.length_drop, hb2len]
    have h1 : Nat.min (b1.length - A) (b1.length - A) = b1.length - A :=
      Nat.min_self _
    have h2 : Nat.min (B - A + 1) (b1.length - A) = B - A + 1 :=
      Nat.min_eq_left (by omega)
    rw [h1, h2]
  rw [hk]
  dsimp only
  -- the tail beyond the re-parsed region is the old overlay's tail
  have htail : (hb2.drop A).drop (B - A + 1) =
      highlightMap syn (b1.drop (B + 1)) := by
    rw [List.drop_drop]
    have hidx : A + (B - A + 1) = B + 1 := by omega
    rw [hidx, hhb2]
    have hlen1 : ((highlightMap syn b0).take (A + 1) ++
        List.replicate (B - A) default).length = B + 1 := by
      rw [List.length_append, List.length_take, hm0,
        Nat.min_eq_left (by omega), List.length_replicate]
      omega
    have hidx2 : B + 1 = ((highlightMap syn b0).take (A + 1) ++
        List.replicate (B - A) default).length + 0 := by rw [hlen1]
    nth_rewrite 1 [hidx2]
    rw [List.drop_append, List.drop_zero]
    show (highlightMap syn b0).drop (A + 1) = highlightMap syn (b1.drop (B + 1))
    unfold highlightMap
    rw [← List.map_drop, hsuf]
  -- the prefix kept by the splice is the old (= new) prefix
  have hpref : hb2.take A = highlightMap syn (b1.take A) := by
    have hle : A ≤ ((highlightMap syn b0).take (A + 1)).length := by
      rw [List.length_take, hm0]
      exact Nat.le_min.mpr ⟨by omega, by omega⟩
    have hle2 : A ≤ ((highlightMap syn b0).take (A + 1) ++
        List.replicate (B - A) (default : HLine)).length :=
      le_trans hle (by rw [List.length_append]; omega)
    rw [hhb2, List.take_append_of_le_length hle2,
      List.take_append_of_le_length hle,
      List.take_take, Nat.min_eq_left (by omega)]
    unfold highlightMap
    rw [← List.map_take, hpre]
  rw [htail, hpref]
  have hjoin : highlightMap syn (b1.take A) ++
      (((b1.drop A).take (B - A + 1)).map (lineHighlight syn) ++
        highlightMap syn (b1.drop (B + 1))) = highlightMap syn b1 := by
    show List.map (lineHighlight syn) (b1.take A) ++
      (List.map (lineHighlight syn) ((b1.drop A).take (B - A + 1)) ++
        List.map (lineHighlight syn) (b1.drop (B + 1))) =
          List.map (lineHighlight syn) b1
    rw [← List.map_append, ← List.map_append]
    congr 1
    have hidx : B + 1 = A + (B - A + 1) := by omega
    rw [hidx, ← List.drop_drop, List.take_append_drop, List.take_append_drop]
  rw [hjoin]
  exact fixHighlightFrom_skip syn b1 (B + 1) _
    (highlightMap_state_mem syn hnp b1)

/-- C1 (counterexample to the claim as stated): with the block-comment
syntax, deleting the opening `/*` of `"/* a"` (range `(0,0)..(0,2)`) and
updating the overlay with `on_delete` does NOT reproduce
`highligh_all` on the resulting buffer: the repair walk breaks as soon
as the carry and the stored state are both `Finished`, leaving line 1
with its stale comment token. -/
theorem c1_counterexample :
    DeleteShape exDelB0 exDelB1 exDelRange ∧
    onDelete commentSyntax exDelB1 exDelRange
        (highlighAll commentSyntax exDelB0) ≠
      highlighAll commentSyntax exDelB1 := by decide

/-- C1 (amended): for a syntax none of whose rules ever returns
`Pending` (no multi-line continuation), every overlay reachable from a
full `highligh_all` by a sequence of buffer edits applied through
`on_insert` / `on_delete` equals `highligh_all` of the final buffer,
token-for-token and state-for-state. -/
theorem c1_edit_convergence (syn : Syntax) (hnp : NoPending syn)
    (b : List (List Nat)) (ov : List HLine)
    (h : EditApplied syn b ov) : ov = highlighAll syn b := by
  induction h with
  | init b => rfl
  | ins b0 b1 r ov h hins ih =>
    rw [ih, highlighAll_map syn hnp b0, onInsert_map syn hnp b0 b1 r hins]
    exact (highlighAll_map syn hnp b1).symm
  | del b0 b1 r ov h hdel ih =>
    rw [ih, highlighAll_map syn hnp b0, onDelete_map syn hnp b0 b1 r hdel]
    exact (highlighAll_map syn hnp b1).symm

/-- The amended C1 theorem applied at a concrete input: the rule-free
syntax (trivially `NoPending`), the two-line buffer `"a" / "b"`, and one
whole-line deletion. -/
theorem c1_edit_convergence_witness :
    onDelete noRulesSyntax exTinyB1 exTinyRange
        (highlighAll noRulesSyntax exTinyB0) =
      highlighAll noRulesSyntax exTinyB1 :=
  c1_edit_convergence noRulesSyntax
    (fun kp hkp => absurd hkp (List.not_mem_nil kp))
    exTinyB1 _
    (EditApplied.del exTinyB0 exTinyB1 exTinyRange _
      (EditApplied.init exTinyB0) (by decide))

/-- C2: `on_delete` drains the overlay lines, re-parses the merged line
with the prior carry, but starts the repair walk at
`range.to.line_index + 1`, NOT at `range.from.line_index + 1` as the
spec words it.  Deleting lines `[0, 2)` of the six-line buffer
`"/*" / "a" / "b" / "c" / "*/" / "d"` exhibits the difference: the
walk skips the shifted lines `from + 1 ..= to`, so the overlay line at
index 1 keeps the old (pre-edit) entry of line 3 verbatim, while the
spec's walk re-parses it with the current carry. -/
theorem c2_delete_repair_start :
    DeleteShape exMulB0 exMulB1 exMulRange ∧
    onDelete commentSyntax exMulB1 exMulRange
        (highlighAll commentSyntax exMulB0) ≠
      onDeleteSpec commentSyntax exMulB1 exMulRange
        (highlighAll commentSyntax exMulB0) ∧
    (onDelete commentSyntax exMulB1 exMulRange
        (highlighAll commentSyntax exMulB0)).getD 1 default =
      (highlighAll commentSyntax exMulB0).getD 3 default ∧
    (onDeleteSpec commentSyntax exMulB1 exMulRange
        (highlighAll commentSyntax exMulB0)).getD 1 default =
      lineHighlight commentSyntax (exMulB1.getD 1 []) := by decide

end Pepper
